import Mathlib

/-!
Verification of the lock-free linked-list macros in `lock_free_list.h`
(repository `mtekllc/lockfreelist`).

The C header defines macro operations over an intrusive doubly linked list
whose nodes carry atomic `next`/`prev` pointers, an atomic `removed` flag and
an atomic `refcount`.  We give a shallow embedding of the single-threaded
executions of these macros: the heap is an explicit association list from node
addresses to node records, a list instance is the pair of endpoint pointers
`head`/`tail` together with the heap and an allocation counter (fresh
addresses are never reused, matching the spec's idealisation that a node is
identified by its address).  In a single-threaded execution a CAS whose
expected value was loaded from an unchanged location succeeds, and a CAS
retry loop whose failure branch re-executes identically spins forever; we
model the latter, together with any access to a freed node, as `none`
(undefined/non-terminating behaviour).  Traversal loops take explicit fuel;
`none` also results when the fuel runs out (a walk that did not terminate).

Payloads are modelled as a single natural-number field `val` (the C list is
generic over payload; `lfl_find` compares one designated field).
-/

/-- A list node: `next`/`prev` links, the logical-removal flag, the external
reference count, and the user payload (one field, as used by `lfl_find`).
The dead fields `nextc`/`prevc` of the C struct are never read or written by
any operation and are omitted. -/
structure Node where
  next : Option Nat
  prev : Option Nat
  removed : Bool
  refcount : Nat
  val : Nat
deriving DecidableEq, Repr

/-- The heap: an association list from addresses to nodes.  An address that is
not a key is unallocated (or has been freed). -/
abbrev Heap := List (Nat × Node)

/-- Read the node at address `a` (first matching key). -/
def hget (h : Heap) (a : Nat) : Option Node :=
  match h with
  | [] => none
  | (k, n) :: t => if k = a then some n else hget t a

/-- Overwrite the node at address `a` (first matching key); no-op if absent. -/
def hset (h : Heap) (a : Nat) (n : Node) : Heap :=
  match h with
  | [] => []
  | (k, m) :: t => if k = a then (k, n) :: t else (k, m) :: hset t a n

/-- Free the node at address `a`. -/
def hdel (h : Heap) (a : Nat) : Heap :=
  match h with
  | [] => []
  | (k, n) :: t => if k = a then hdel t a else (k, n) :: hdel t a

/-- The keys (allocated addresses) of a heap. -/
def hkeys (h : Heap) : List Nat := h.map Prod.fst

/-- A list instance: the two endpoint pointers declared by `lfl_vars`, the
population of nodes, and the allocation counter (`calloc` is modelled as
returning the next fresh address, zero-initialised). -/
structure LState where
  heap : Heap
  head : Option Nat
  tail : Option Nat
  ctr : Nat
deriving DecidableEq, Repr

/-- `lfl_init` / `lfl_vars_static`: both endpoints null, empty heap. -/
def lfl_init : LState := { heap := [], head := none, tail := none, ctr := 0 }

/-- `lfl_add_tail`: allocate a zero-initialised node (payload `v` is then set
by the caller), store `next := NULL`, `removed := 0`, and run the CAS loop:
if the loaded tail is null, CAS head from null (success publishes the node and
stores it into `tail` and `prev := NULL`); otherwise CAS the tail node's
`next` from null, set `prev` to the old tail and advance `tail` (the advisory
tail CAS succeeds single-threaded since `tail` is unchanged).  A failing CAS
re-runs the loop on an identical state, i.e. spins forever: `none`. -/
def lfl_add_tail (v : Nat) (s : LState) : Option (Nat × LState) :=
  let a := s.ctr
  match s.tail with
  | none =>
      if s.head = none then
        some (a, { heap := (a, { next := none, prev := none, removed := false,
                                 refcount := 0, val := v }) :: s.heap,
                   head := some a, tail := some a, ctr := a + 1 })
      else none
  | some t =>
      match hget s.heap t with
      | none => none
      | some tn =>
          if tn.next = none then
            some (a, { heap := (a, { next := none, prev := some t, removed := false,
                                     refcount := 0, val := v })
                         :: hset s.heap t { tn with next := some a },
                       head := s.head, tail := some a, ctr := a + 1 })
          else none

/-- `lfl_add_head`: allocate, set `removed := 0`, loop: load head, store
`next := old head`, `prev := NULL`, CAS head (succeeds single-threaded);
then store the new node into the old head's `prev`, or into `tail` when the
list was empty. -/
def lfl_add_head (v : Nat) (s : LState) : Option (Nat × LState) :=
  let a := s.ctr
  match s.head with
  | none =>
      some (a, { heap := (a, { next := none, prev := none, removed := false,
                               refcount := 0, val := v }) :: s.heap,
                 head := some a, tail := some a, ctr := a + 1 })
  | some h0 =>
      match hget s.heap h0 with
      | none => none
      | some hn =>
          some (a, { heap := (a, { next := some h0, prev := none, removed := false,
                                   refcount := 0, val := v })
                       :: hset s.heap h0 { hn with prev := some a },
                     head := some a, tail := s.tail, ctr := a + 1 })

/-- `lfl_add_tail_ptr`: identical linkage protocol to `lfl_add_tail`, but the
node is caller-allocated and caller-initialised (every use in the repository
passes a fresh `lfl_new`, i.e. `calloc`, node: a fresh address).  The caller
may have set the payload and the refcount; the macro itself overwrites
`next := NULL` and `removed := 0`, and writes `prev` when linking. -/
def lfl_add_tail_ptr (v r : Nat) (s : LState) : Option (Nat × LState) :=
  let a := s.ctr
  match s.tail with
  | none =>
      if s.head = none then
        some (a, { heap := (a, { next := none, prev := none, removed := false,
                                 refcount := r, val := v }) :: s.heap,
                   head := some a, tail := some a, ctr := a + 1 })
      else none
  | some t =>
      match hget s.heap t with
      | none => none
      | some tn =>
          if tn.next = none then
            some (a, { heap := (a, { next := none, prev := some t, removed := false,
                                     refcount := r, val := v })
                         :: hset s.heap t { tn with next := some a },
                       head := s.head, tail := some a, ctr := a + 1 })
          else none

/-- `lfl_add_head_ptr`: identical linkage protocol to `lfl_add_head` with a
caller-allocated fresh node (see `lfl_add_tail_ptr`). -/
def lfl_add_head_ptr (v r : Nat) (s : LState) : Option (Nat × LState) :=
  let a := s.ctr
  match s.head with
  | none =>
      some (a, { heap := (a, { next := none, prev := none, removed := false,
                               refcount := r, val := v }) :: s.heap,
                 head := some a, tail := some a, ctr := a + 1 })
  | some h0 =>
      match hget s.heap h0 with
      | none => none
      | some hn =>
          some (a, { heap := (a, { next := some h0, prev := none, removed := false,
                                   refcount := r, val := v })
                       :: hset s.heap h0 { hn with prev := some a },
                     head := some a, tail := s.tail, ctr := a + 1 })

/-- `lfl_remove`: a single store of `1` into `target->removed`.  Storing
through a dangling pointer is undefined: `none`. -/
def lfl_remove (a : Nat) (s : LState) : Option LState :=
  match hget s.heap a with
  | none => none
  | some n => some { s with heap := hset s.heap a { n with removed := true } }

/-- CAS on a node's `next` field: load the node at `p` (undefined if freed),
swap `next` from `some expected` to `desired` if it still matches, otherwise
leave the heap unchanged (the failure is silently absorbed). -/
def cas_next (h : Heap) (p : Nat) (expected : Nat) (desired : Option Nat) :
    Option Heap :=
  match hget h p with
  | none => none
  | some pn =>
      some (if pn.next = some expected then hset h p { pn with next := desired } else h)

/-- CAS on a node's `prev` field (see `cas_next`). -/
def cas_prev (h : Heap) (p : Nat) (expected : Nat) (desired : Option Nat) :
    Option Heap :=
  match hget h p with
  | none => none
  | some pn =>
      some (if pn.prev = some expected then hset h p { pn with prev := desired } else h)

/-- `lfl_delete`: load `prev` and `next` of the target; CAS the predecessor's
`next` (or `head`) from the target to `next`; CAS the successor's `prev`
(or `tail`) from the target to `prev`; each CAS failure is silently absorbed;
finally free the target. -/
def lfl_delete (a : Nat) (s : LState) : Option LState :=
  match hget s.heap a with
  | none => none
  | some n =>
      let step1 : Option LState :=
        match n.prev with
        | some p => (cas_next s.heap p a n.next).map (fun h => { s with heap := h })
        | none => some (if s.head = some a then { s with head := n.next } else s)
      match step1 with
      | none => none
      | some s1 =>
          let step2 : Option LState :=
            match n.next with
            | some m => (cas_prev s1.heap m a n.prev).map (fun h => { s1 with heap := h })
            | none => some (if s1.tail = some a then { s1 with tail := n.prev } else s1)
          match step2 with
          | none => none
          | some s2 => some { s2 with heap := hdel s2.heap a }

/-- `lfl_pop_head`: the caller's output variable is initialised to `NULL`
(as in every use in the repository); on an empty list the loop body never
runs and the result is `none`.  Otherwise the head CAS succeeds
single-threaded: store the stashed `next` into `head`, null `tail` when the
list became empty, clear the popped node's links, and return it (unfreed). -/
def lfl_pop_head (s : LState) : Option (Option Nat × LState) :=
  match s.head with
  | none => some (none, s)
  | some c =>
      match hget s.heap c with
      | none => none
      | some cn =>
          some (some c,
            { s with head := cn.next,
                     tail := if cn.next = none then none else s.tail,
                     heap := hset s.heap c { cn with next := none, prev := none } })

/-- The predecessor-locating walk of `lfl_pop_tail`: from `(pr, c)` follow
`next` until the cursor reaches `t` or falls off the end; returns the final
`(prev, curr)` pair, `none` on fuel exhaustion (non-terminating walk) or on
reading a freed node. -/
def walkTo (h : Heap) (t : Nat) :
    Nat → Option Nat → Option Nat → Option (Option Nat × Option Nat)
  | 0, _, _ => none
  | _ + 1, pr, none => some (pr, none)
  | fuel + 1, pr, some c =>
      if c = t then some (pr, some c)
      else
        match hget h c with
        | none => none
        | some cn => walkTo h t fuel (some c) cn.next

/-- `lfl_pop_tail`: load `tail`; if null return null.  Walk from `head` to
find the tail's predecessor.  If the cursor fell off the end, break and
return null ("item disappeared").  With a predecessor `p`, CAS `tail` to `p`
(succeeds single-threaded), null `p->next`, clear and return the node.  With
no predecessor the tail is the head: CAS `head` to null (a failure would
retry forever: `none`), null `tail`, clear and return the node. -/
def lfl_pop_tail (s : LState) : Option (Option Nat × LState) :=
  match s.tail with
  | none => some (none, s)
  | some t =>
      match walkTo s.heap t (s.heap.length + 1) none s.head with
      | none => none
      | some (_, none) => some (none, s)
      | some (pr, some c) =>
          match pr with
          | some p =>
              match hget s.heap p, hget s.heap c with
              | some pn, some cn =>
                  some (some c,
                    { s with tail := some p,
                             heap := hset (hset s.heap p { pn with next := none })
                                       c { cn with next := none, prev := none } })
              | _, _ => none
          | none =>
              if s.head = some t then
                match hget s.heap c with
                | none => none
                | some cn =>
                    some (some c,
                      { s with head := none, tail := none,
                               heap := hset s.heap c { cn with next := none, prev := none } })
              else none

/-- Whether a node survives a sweep: it is reaped iff it is logically removed
and its refcount is zero. -/
def keep (n : Node) : Bool := !(n.removed && n.refcount == 0)

/-- The walk of `lfl_sweep`.  `fins` accumulates `(address, payload)` of the
nodes handed to the cleanup function, in call order.  For each cursor node:
stash `next`, load `removed` and the refcount; if reapable, CAS the
predecessor's `next` (or `head`) from the cursor to the stash — on success
finalize, free and advance keeping `prev`; on failure restart from head —
otherwise advance both.  `none` on fuel exhaustion or on reading a freed
node. -/
def lfl_sweep_go :
    Nat → Option Nat → Option Nat → LState → List (Nat × Nat) →
    Option (LState × List (Nat × Nat))
  | 0, _, _, _, _ => none
  | _ + 1, _, none, s, fins => some (s, fins)
  | fuel + 1, pr, some c, s, fins =>
      match hget s.heap c with
      | none => none
      | some cn =>
          if cn.removed ∧ cn.refcount = 0 then
            match pr with
            | some p =>
                match hget s.heap p with
                | none => none
                | some pn =>
                    if pn.next = some c then
                      lfl_sweep_go fuel pr cn.next
                        { s with heap := hdel (hset s.heap p { pn with next := cn.next }) c }
                        (fins ++ [(c, cn.val)])
                    else
                      lfl_sweep_go fuel none s.head s fins
            | none =>
                if s.head = some c then
                  lfl_sweep_go fuel none cn.next
                    { s with heap := hdel s.heap c, head := cn.next }
                    (fins ++ [(c, cn.val)])
                else
                  lfl_sweep_go fuel none s.head s fins
          else
            lfl_sweep_go fuel (some c) cn.next s fins

/-- `lfl_sweep`: walk from `head` with `prev = NULL`, reaping each node whose
`removed` flag is set and whose refcount is zero, calling the cleanup
function on each reaped node before freeing it.  Returns the final state and
the finalizer call log. -/
def lfl_sweep (s : LState) : Option (LState × List (Nat × Nat)) :=
  lfl_sweep_go (s.heap.length + 1) none s.head s []

/-- The freeing walk of `lfl_clear`. -/
def lfl_clear_go : Nat → Option Nat → Heap → Option Heap
  | 0, _, _ => none
  | _ + 1, none, h => some h
  | fuel + 1, some c, h =>
      match hget h c with
      | none => none
      | some cn => lfl_clear_go fuel cn.next (hdel h c)

/-- `lfl_clear`: walk the chain from `head` freeing every node (the `next`
pointer is stashed before the free), then store null into both endpoints. -/
def lfl_clear (s : LState) : Option LState :=
  (lfl_clear_go (s.heap.length + 1) s.head s.heap).map
    (fun h => { heap := h, head := none, tail := none, ctr := s.ctr })

/-- `lfl_foreach`: visit the chain from `head`, stashing `next` before each
step and skipping nodes whose `removed` flag is set; returns the
`(address, payload)` pairs of the visited (live) nodes in order. -/
def lfl_foreach_go (h : Heap) : Nat → Option Nat → Option (List (Nat × Nat))
  | 0, _ => none
  | _ + 1, none => some []
  | fuel + 1, some c =>
      match hget h c with
      | none => none
      | some cn =>
          (lfl_foreach_go h fuel cn.next).map
            (fun r => if cn.removed then r else (c, cn.val) :: r)

/-- The visited `(address, payload)` pairs of a full `lfl_foreach` traversal. -/
def lfl_foreach (s : LState) : Option (List (Nat × Nat)) :=
  lfl_foreach_go s.heap (s.heap.length + 1) s.head

/-- `lfl_find`: linear scan from `head`; at each non-removed node compare the
payload field with `v`; return the first match, or null. -/
def lfl_find_go (h : Heap) (v : Nat) : Nat → Option Nat → Option (Option Nat)
  | 0, _ => none
  | _ + 1, none => some none
  | fuel + 1, some c =>
      match hget h c with
      | none => none
      | some cn =>
          if cn.removed = false ∧ cn.val = v then some (some c)
          else lfl_find_go h v fuel cn.next

/-- Result of a full `lfl_find` scan. -/
def lfl_find (v : Nat) (s : LState) : Option (Option Nat) :=
  lfl_find_go s.heap v (s.heap.length + 1) s.head

/-- `lfl_count`: the number of live nodes seen by `lfl_foreach`. -/
def lfl_count (s : LState) : Option Nat :=
  (lfl_foreach s).map List.length

/-- `lfl_count_pending_cleanup`: count the nodes that are removed and still
have a positive refcount. -/
def lfl_count_pending_go (h : Heap) : Nat → Option Nat → Option Nat
  | 0, _ => none
  | _ + 1, none => some 0
  | fuel + 1, some c =>
      match hget h c with
      | none => none
      | some cn =>
          (lfl_count_pending_go h fuel cn.next).map
            (fun k => if cn.removed ∧ 0 < cn.refcount then k + 1 else k)

/-- Result of a full `lfl_count_pending_cleanup` scan. -/
def lfl_count_pending (s : LState) : Option Nat :=
  lfl_count_pending_go s.heap (s.heap.length + 1) s.head

/-- The public mutating operations, as invoked by a single-threaded client. -/
inductive Op where
  | addTail (v : Nat)
  | addHead (v : Nat)
  | addTailPtr (v r : Nat)
  | addHeadPtr (v r : Nat)
  | remove (a : Nat)
  | delete (a : Nat)
  | popHead
  | popTail
  | sweep
  | clear
deriving DecidableEq, Repr

/-- One operation, as a state transformer (dropping returned nodes/logs). -/
def stepOp (o : Op) (s : LState) : Option LState :=
  match o with
  | .addTail v => (lfl_add_tail v s).map Prod.snd
  | .addHead v => (lfl_add_head v s).map Prod.snd
  | .addTailPtr v r => (lfl_add_tail_ptr v r s).map Prod.snd
  | .addHeadPtr v r => (lfl_add_head_ptr v r s).map Prod.snd
  | .remove a => lfl_remove a s
  | .delete a => lfl_delete a s
  | .popHead => (lfl_pop_head s).map Prod.snd
  | .popTail => (lfl_pop_tail s).map Prod.snd
  | .sweep => (lfl_sweep s).map Prod.fst
  | .clear => lfl_clear s

/-- Run a sequence of operations. -/
def run : List Op → LState → Option LState
  | [], s => some s
  | o :: ops, s => (stepOp o s).bind (run ops)

/-! ### Chain segments

`ChainSeg h c e l` states that starting at cursor `c` and following the
`next` links through the nodes listed (in order) by `l`, one ends at cursor
`e`.  The full forward chain of a list is `ChainSeg h head none l`. -/

inductive ChainSeg (h : Heap) : Option Nat → Option Nat → List Nat → Prop
  | nil (c : Option Nat) : ChainSeg h c c []
  | cons {a : Nat} {n : Node} {e : Option Nat} {l : List Nat} :
      hget h a = some n → ChainSeg h n.next e l → ChainSeg h (some a) e (a :: l)

/-- The full forward chain from a cursor to the end of the list. -/
abbrev Chain (h : Heap) (c : Option Nat) (l : List Nat) : Prop :=
  ChainSeg h c none l

/-- `PrevOk h p l`: walking the addresses of `l` in order, every allocated
node's `prev` field points to the preceding list element (`p` before the
first). -/
def PrevOk (h : Heap) : Option Nat → List Nat → Prop
  | _, [] => True
  | p, a :: l => (∀ n, hget h a = some n → n.prev = p) ∧ PrevOk h (some a) l

/-- The cursor to the last element of `l`, or `p` when `l` is empty. -/
def lastc (p : Option Nat) (l : List Nat) : Option Nat :=
  match l.getLast? with
  | none => p
  | some x => some x

/-- Well-formedness of a list instance with spine `l` (the steady-state
invariants of the spec): the forward chain from `head` is `l` and ends at
null; `tail` is the last spine element; `prev` links run backwards along the
spine with the head's `prev` null; no address repeats; allocated addresses
are below the allocation counter and heap keys are distinct; and every
allocated node outside the spine (a popped node) has null links. -/
structure Wf (s : LState) (l : List Nat) : Prop where
  chain : Chain s.heap s.head l
  tl : s.tail = l.getLast?
  prevok : PrevOk s.heap none l
  nd : l.Nodup
  keys_nd : (hkeys s.heap).Nodup
  keys_lt : ∀ k ∈ hkeys s.heap, k < s.ctr
  detached : ∀ p ∈ s.heap, p.1 ∉ l → p.2.next = none ∧ p.2.prev = none

/-- A reachable-state invariant: some spine witnesses well-formedness. -/
def WfL (s : LState) : Prop := ∃ l, Wf s l

/-- A node survives a sweep of heap `h` (kept) when it is absent or `keep`. -/
def keptB (h : Heap) (b : Nat) : Bool :=
  match hget h b with
  | some n => keep n
  | none => true

/-- The spine addresses surviving a sweep. -/
def keptAddrs (h : Heap) (l : List Nat) : List Nat := l.filter (keptB h)

/-- The `(address, payload)` pairs of the reapable nodes of `l`, in order:
the expected finalizer call log of a sweep. -/
def reapedPairs (h : Heap) (l : List Nat) : List (Nat × Nat) :=
  l.filterMap (fun b =>
    match hget h b with
    | some n => if keep n then none else some (b, n.val)
    | none => none)

/-- The steady-state invariants of spec section 3, stated over a list
instance: (3.1) `head` is null iff `tail` is null; (3.2) the `next`-chain
from `head` lists the nodes and ends at null with `tail` its last element;
(3.3) `prev` links run backwards along that chain with the head's `prev`
null; (3.7) no node appears twice; and (3.4) every node's neighbours point
back at it. -/
def Invariants (s : LState) : Prop :=
  (s.head = none ↔ s.tail = none) ∧
  ∃ l, Chain s.heap s.head l ∧ s.tail = l.getLast? ∧ PrevOk s.heap none l ∧
    l.Nodup ∧
    ∀ a ∈ l, ∀ n, hget s.heap a = some n →
      (∀ p, n.prev = some p → ∃ pn, hget s.heap p = some pn ∧ pn.next = some a) ∧
      (∀ b, n.next = some b → ∃ bn, hget s.heap b = some bn ∧ bn.prev = some a)

/-- Invariant 3.5 over a run: once a node's `removed` flag is observed set,
it is still set at every later point of the run at which the node is still
allocated. -/
def RemovedMonotonic (ops : List Op) : Prop :=
  ∀ ops1 ops2 s1 s2, ops = ops1 ++ ops2 →
    run ops1 lfl_init = some s1 → run ops2 s1 = some s2 →
    ∀ a n1 n2, hget s1.heap a = some n1 → n1.removed = true →
      hget s2.heap a = some n2 → n2.removed = true

/-- Operation sequences avoiding `lfl_sweep` and `lfl_pop_head`. -/
def NoSweepPopHead (ops : List Op) : Prop :=
  ∀ o ∈ ops, o ≠ Op.sweep ∧ o ≠ Op.popHead

/-- Address `a` is invisible to the query operations on state `s`:
`lfl_foreach` never yields it (hence `lfl_count` counts a collection without
it), and `lfl_find` never returns it. -/
def NotObserved (s : LState) (a : Nat) : Prop :=
  (∀ items, lfl_foreach s = some items →
    a ∉ items.map Prod.fst ∧ lfl_count s = some items.length) ∧
  (∀ v r, lfl_find v s = some r → r ≠ some a)

/-- The sequence of `lfl_add_tail` calls pushing the payloads `vs`. -/
def pushTailOps (vs : List Nat) : List Op := vs.map Op.addTail

/-! ### Heap lemmas -/

theorem hget_cons (k b : Nat) (n : Node) (h : Heap) :
    hget ((k, n) :: h) b = if k = b then some n else hget h b := rfl

theorem hkeys_cons (k : Nat) (n : Node) (h : Heap) :
    hkeys ((k, n) :: h) = k :: hkeys h := rfl

theorem hget_hset_ne (h : Heap) (a b : Nat) (n : Node) (hne : b ≠ a) :
    hget (hset h a n) b = hget h b := by
  induction h with
  | nil => rfl
  | cons p t ih =>
    obtain ⟨k, m⟩ := p
    simp only [hset]
    by_cases hk : k = a
    · have hkb : k ≠ b := by rw [hk]; exact Ne.symm hne
      rw [if_pos hk]
      simp only [hget, if_neg hkb]
    · rw [if_neg hk]
      by_cases hkb : k = b
      · simp only [hget, if_pos hkb]
      · simp only [hget, if_neg hkb, ih]

theorem hget_hset_eq (h : Heap) (a : Nat) (m n : Node)
    (hm : hget h a = some m) : hget (hset h a n) a = some n := by
  induction h with
  | nil => simp [hget] at hm
  | cons p t ih =>
    obtain ⟨k, q⟩ := p
    simp only [hset]
    by_cases hk : k = a
    · rw [if_pos hk]
      simp only [hget, if_pos hk]
    · rw [if_neg hk]
      simp only [hget, if_neg hk] at hm
      simp only [hget, if_neg hk, ih hm]

theorem hkeys_hset (h : Heap) (a : Nat) (n : Node) :
    hkeys (hset h a n) = hkeys h := by
  induction h with
  | nil => rfl
  | cons p t ih =>
    obtain ⟨k, m⟩ := p
    simp only [hset]
    by_cases hk : k = a
    · rw [if_pos hk]
      simp [hkeys_cons]
    · rw [if_neg hk]
      simp only [hkeys_cons] at ih ⊢
      rw [ih]

theorem hget_hdel (h : Heap) (a b : Nat) :
    hget (hdel h a) b = if b = a then none else hget h b := by
  induction h with
  | nil => simp [hdel, hget]
  | cons p t ih =>
    obtain ⟨k, m⟩ := p
    simp only [hdel]
    by_cases hk : k = a
    · rw [if_pos hk, ih]
      by_cases hba : b = a
      · rw [if_pos hba, if_pos hba]
      · have hkb : k ≠ b := by
          rw [hk]; exact fun hab => hba hab.symm
        rw [if_neg hba, if_neg hba]
        simp only [hget, if_neg hkb]
    · rw [if_neg hk]
      by_cases hkb : k = b
      · have hba : ¬ b = a := by
          rw [← hkb]; exact hk
        simp only [hget, if_pos hkb, if_neg hba]
      · simp only [hget, if_neg hkb, ih]

theorem hdel_sublist (h : Heap) (a : Nat) : (hdel h a).Sublist h := by
  induction h with
  | nil => simp [hdel]
  | cons p t ih =>
    obtain ⟨k, m⟩ := p
    simp only [hdel]
    by_cases hk : k = a
    · rw [if_pos hk]
      exact ih.cons _
    · rw [if_neg hk]
      exact ih.cons₂ _

theorem hkeys_hdel_sublist (h : Heap) (a : Nat) :
    (hkeys (hdel h a)).Sublist (hkeys h) :=
  List.Sublist.map Prod.fst (hdel_sublist h a)

theorem mem_hkeys_of_hget {h : Heap} {b : Nat} {n : Node}
    (hb : hget h b = some n) : b ∈ hkeys h := by
  induction h with
  | nil => simp [hget] at hb
  | cons p t ih =>
    obtain ⟨k, m⟩ := p
    by_cases hk : k = b
    · simp [hkeys_cons, hk]
    · simp only [hget, if_neg hk] at hb
      simp only [hkeys_cons, List.mem_cons]
      exact Or.inr (ih hb)

theorem hget_eq_none_of_not_mem {h : Heap} {b : Nat}
    (hb : b ∉ hkeys h) : hget h b = none := by
  cases hg : hget h b with
  | none => rfl
  | some n => exact absurd (mem_hkeys_of_hget hg) hb

theorem mem_of_hget {h : Heap} {b : Nat} {n : Node}
    (hb : hget h b = some n) : (b, n) ∈ h := by
  induction h with
  | nil => simp [hget] at hb
  | cons p t ih =>
    obtain ⟨k, m⟩ := p
    by_cases hk : k = b
    · subst hk
      simp only [hget, if_pos rfl] at hb
      cases hb
      exact List.mem_cons_self _ _
    · simp only [hget, if_neg hk] at hb
      exact List.mem_cons_of_mem _ (ih hb)

theorem hget_of_mem_nodup {h : Heap} {b : Nat} {n : Node}
    (hnd : (hkeys h).Nodup) (hb : (b, n) ∈ h) : hget h b = some n := by
  induction h with
  | nil => simp at hb
  | cons p t ih =>
    obtain ⟨k, m⟩ := p
    simp only [hkeys_cons, List.nodup_cons] at hnd
    rcases List.mem_cons.mp hb with hb | hb
    · cases hb
      simp [hget]
    · have hkb : k ≠ b := by
        intro hkb
        subst hkb
        exact hnd.1 (List.mem_map_of_mem Prod.fst hb)
      simp only [hget, if_neg hkb]
      exact ih hnd.2 hb

theorem hkeys_length (h : Heap) : (hkeys h).length = h.length := by
  simp [hkeys]

theorem chainseg_congr {h h' : Heap} {c e : Option Nat} {l : List Nat}
    (hagree : ∀ a ∈ l, hget h' a = hget h a)
    (hc : ChainSeg h c e l) : ChainSeg h' c e l := by
  induction hc with
  | nil c => exact ChainSeg.nil c
  | cons hga hrest ih =>
    refine ChainSeg.cons ?_ (ih (fun b hb => hagree b (List.mem_cons_of_mem _ hb)))
    rw [hagree _ (List.mem_cons_self _ _)]
    exact hga

theorem chainseg_append {h : Heap} {c d e : Option Nat} {l1 l2 : List Nat}
    (h1 : ChainSeg h c d l1) (h2 : ChainSeg h d e l2) :
    ChainSeg h c e (l1 ++ l2) := by
  induction h1 with
  | nil c => exact h2
  | cons hga _ ih => exact ChainSeg.cons hga (ih h2)

theorem chainseg_split {h : Heap} {c e : Option Nat} {l : List Nat} {a : Nat}
    (hc : ChainSeg h c e l) (ha : a ∈ l) :
    ∃ l1 l2 n, l = l1 ++ a :: l2 ∧ ChainSeg h c (some a) l1 ∧
      hget h a = some n ∧ ChainSeg h n.next e l2 := by
  induction hc with
  | nil c => simp at ha
  | cons hga hrest ih =>
    rename_i b n e l
    rcases List.mem_cons.mp ha with hab | hal
    · subst hab
      exact ⟨[], l, n, rfl, ChainSeg.nil _, hga, hrest⟩
    · obtain ⟨l1, l2, m, hl, hseg1, hm, hseg2⟩ := ih hal
      exact ⟨b :: l1, l2, m, by simp [hl], ChainSeg.cons hga hseg1, hm, hseg2⟩

theorem chain_mem_hget {h : Heap} {c e : Option Nat} {l : List Nat} {a : Nat}
    (hc : ChainSeg h c e l) (ha : a ∈ l) : ∃ n, hget h a = some n := by
  obtain ⟨_, _, n, _, _, hn, _⟩ := chainseg_split hc ha
  exact ⟨n, hn⟩

theorem chainseg_cons_inv {h : Heap} {c e : Option Nat} {a : Nat} {l : List Nat}
    (hc : ChainSeg h c e (a :: l)) :
    c = some a ∧ ∃ n, hget h a = some n ∧ ChainSeg h n.next e l := by
  cases hc with
  | cons hga hrest => exact ⟨rfl, _, hga, hrest⟩

theorem chainseg_nil_inv {h : Heap} {c e : Option Nat}
    (hc : ChainSeg h c e []) : c = e := by
  cases hc; rfl

theorem chainseg_snoc_inv {h : Heap} {c e : Option Nat} {l : List Nat} {a : Nat}
    (hc : ChainSeg h c e (l ++ [a])) :
    ∃ n, ChainSeg h c (some a) l ∧ hget h a = some n ∧ n.next = e := by
  induction l generalizing c with
  | nil =>
    obtain ⟨hca, n, hn, hrest⟩ := chainseg_cons_inv (by simpa using hc)
    subst hca
    exact ⟨n, ChainSeg.nil _, hn, chainseg_nil_inv hrest⟩
  | cons b t ih =>
    obtain ⟨hcb, n, hn, hrest⟩ := chainseg_cons_inv (by simpa using hc)
    subst hcb
    obtain ⟨m, hseg, hm, hme⟩ := ih hrest
    exact ⟨m, ChainSeg.cons hn hseg, hm, hme⟩

theorem chain_last {h : Heap} {t : Nat} :
    ∀ {c : Option Nat} {l : List Nat}, Chain h c l → l.getLast? = some t →
    ∃ n, hget h t = some n ∧ n.next = none := by
  intro c l
  induction l generalizing c with
  | nil => intro _ ht; simp at ht
  | cons a l ih =>
    intro hc ht
    obtain ⟨hca, n, hn, hrest⟩ := chainseg_cons_inv hc
    cases l with
    | nil =>
      simp only [List.getLast?_singleton, Option.some.injEq] at ht
      subst ht
      exact ⟨n, hn, chainseg_nil_inv hrest⟩
    | cons b l' =>
      rw [List.getLast?_cons_cons] at ht
      exact ih hrest ht

/-- Addresses on a chain are allocated. -/
theorem chain_subset_hkeys {h : Heap} {c e : Option Nat} {l : List Nat}
    (hc : ChainSeg h c e l) : ∀ a ∈ l, a ∈ hkeys h := by
  intro a ha
  obtain ⟨n, hn⟩ := chain_mem_hget hc ha
  exact mem_hkeys_of_hget hn

/-! ### PrevOk lemmas -/

theorem prevok_nil (h : Heap) (p : Option Nat) : PrevOk h p [] := by
  unfold PrevOk
  trivial

theorem prevok_cons {h : Heap} {p : Option Nat} {a : Nat} {l : List Nat} :
    PrevOk h p (a :: l) ↔
      (∀ n, hget h a = some n → n.prev = p) ∧ PrevOk h (some a) l :=
  Iff.rfl

theorem prevok_congr {h h' : Heap} {l : List Nat} :
    ∀ {p}, (∀ a ∈ l, hget h' a = hget h a) → PrevOk h p l → PrevOk h' p l := by
  induction l with
  | nil => intro p _ _; exact prevok_nil h' p
  | cons a l ih =>
    intro p hag hp
    rw [prevok_cons] at hp ⊢
    refine ⟨?_, ih (fun b hb => hag b (List.mem_cons_of_mem _ hb)) hp.2⟩
    intro n hn
    rw [hag a (List.mem_cons_self _ _)] at hn
    exact hp.1 n hn

theorem lastc_cons (p : Option Nat) (a : Nat) (l : List Nat) :
    lastc p (a :: l) = lastc (some a) l := by
  cases l with
  | nil => rfl
  | cons b l' =>
    unfold lastc
    rw [List.getLast?_cons_cons]
    obtain ⟨x, hx⟩ : ∃ x, (b :: l').getLast? = some x :=
      ⟨(b :: l').getLast (by simp), List.getLast?_eq_getLast_of_ne_nil (by simp)⟩
    rw [hx]

theorem prevok_append {h : Heap} {l1 l2 : List Nat} :
    ∀ {p}, PrevOk h p (l1 ++ l2) ↔
      PrevOk h p l1 ∧ PrevOk h (lastc p l1) l2 := by
  induction l1 with
  | nil =>
    intro p
    simp only [List.nil_append]
    constructor
    · exact fun hp => ⟨prevok_nil h p, hp⟩
    · exact fun hp => hp.2
  | cons a l ih =>
    intro p
    rw [List.cons_append, prevok_cons, prevok_cons, ih, lastc_cons, and_assoc]

/-! ### Well-formedness facts -/

theorem wf_spine_subset {s : LState} {l : List Nat} (hwf : Wf s l) :
    l ⊆ hkeys s.heap :=
  fun a ha => chain_subset_hkeys hwf.chain a ha

theorem wf_spine_length_le {s : LState} {l : List Nat} (hwf : Wf s l) :
    l.length ≤ s.heap.length := by
  have h1 := (List.subperm_of_subset hwf.nd (wf_spine_subset hwf)).length_le
  rwa [hkeys_length] at h1

theorem wf_init : Wf lfl_init [] := by
  refine ⟨ChainSeg.nil _, rfl, prevok_nil _ _, List.nodup_nil, List.nodup_nil, ?_, ?_⟩
  · intro k hk
    simp [lfl_init, hkeys] at hk
  · intro p hp
    simp [lfl_init] at hp

/-! ### Sweep: frame facts -/

theorem sweep_go_tail_ctr :
    ∀ fuel pr c s fins s' fins',
      lfl_sweep_go fuel pr c s fins = some (s', fins') →
      s'.tail = s.tail ∧ s'.ctr = s.ctr := by
  intro fuel
  induction fuel with
  | zero =>
    intro pr c s fins s' fins' h
    simp [lfl_sweep_go] at h
  | succ fuel ih =>
    intro pr c s fins s' fins' h
    cases c with
    | none =>
      simp only [lfl_sweep_go, Option.some.injEq, Prod.mk.injEq] at h
      rw [← h.1]
      exact ⟨rfl, rfl⟩
    | some cc =>
      unfold lfl_sweep_go at h
      split at h
      · exact absurd h (by simp)
      · split at h
        · split at h
          · split at h
            · exact absurd h (by simp)
            · split at h
              · have h2 := ih _ _ _ _ _ _ h
                exact h2
              · exact ih _ _ _ _ _ _ h
          · split at h
            · have h2 := ih _ _ _ _ _ _ h
              exact h2
            · exact ih _ _ _ _ _ _ h
        · exact ih _ _ _ _ _ _ h
theorem sweep_tail_ctr {s s' : LState} {fins : List (Nat × Nat)}
    (h : lfl_sweep s = some (s', fins)) : s'.tail = s.tail ∧ s'.ctr = s.ctr :=
  sweep_go_tail_ctr _ _ _ _ _ _ _ h

/-! ### Claim C5: pops on an empty list return null -/

/-- C5: `lfl_pop_head` and `lfl_pop_tail` invoked on an empty list
(`head` and `tail` both null) return null and leave the state unchanged. -/
theorem claim_C5 (s : LState) (h1 : s.head = none) (h2 : s.tail = none) :
    lfl_pop_head s = some (none, s) ∧ lfl_pop_tail s = some (none, s) := by
  constructor
  · simp [lfl_pop_head, h1]
  · simp [lfl_pop_tail, h2]

/-- Witness for C5 at the initial (empty) list. -/
theorem claim_C5_witness :
    lfl_pop_head lfl_init = some (none, lfl_init) ∧
    lfl_pop_tail lfl_init = some (none, lfl_init) :=
  claim_C5 lfl_init rfl rfl

/-! ### Claim C7: push-tail then pop-tail round trip on an empty list -/

/-- C7: for every value `v`, `lfl_add_tail v` on the empty list followed
immediately by `lfl_pop_tail` returns the pushed node, whose payload equals
`v`, and leaves the list empty (`head` and `tail` both null). -/
theorem claim_C7 (v : Nat) :
    ∃ a s1 s2 n,
      lfl_add_tail v lfl_init = some (a, s1) ∧
      lfl_pop_tail s1 = some (some a, s2) ∧
      hget s2.heap a = some n ∧ n.val = v ∧
      s2.head = none ∧ s2.tail = none :=
  ⟨0, _, _, _, rfl, rfl, rfl, rfl, rfl, rfl⟩

/-! ### Claim C6: sweep finalizes exactly the eligible node -/

/-- C6: after `push-tail 1, 2, 3` and `mark-removed` of the node with
payload `2` (address 1; its refcount is zero), sweeping with a finalizer
calls the finalizer exactly once, on that node (the call log is exactly
`[(1, 2)]`), and a subsequent iterate yields payloads `1, 3`. -/
theorem claim_C6 :
    ∃ s s',
      run [Op.addTail 1, Op.addTail 2, Op.addTail 3, Op.remove 1] lfl_init =
        some s ∧
      hget s.heap 1 = some { next := some 2, prev := some 0, removed := true,
                             refcount := 0, val := 2 } ∧
      lfl_sweep s = some (s', [(1, 2)]) ∧
      (lfl_foreach s').map (List.map Prod.snd) = some [1, 3] :=
  ⟨_, _, rfl, rfl, rfl, rfl⟩

/-! ### Claim C8: sweep never writes the tail pointer -/

/-- C8: `lfl_sweep` never writes the `tail` pointer: whenever it terminates,
the resulting `tail` equals the previous `tail`; in particular, sweeping a
one-node list whose sole node is removed with refcount zero sets `head` to
null while `tail` keeps its previous (now dangling) value. -/
theorem claim_C8 :
    (∀ s s' fins, lfl_sweep s = some (s', fins) → s'.tail = s.tail) ∧
    (∃ s s', run [Op.addTail 5, Op.remove 0] lfl_init = some s ∧
      lfl_sweep s = some (s', [(0, 5)]) ∧
      s'.head = none ∧ s'.tail = s.tail ∧ s.tail = some 0) :=
  ⟨fun _ _ _ h => (sweep_tail_ctr h).1, ⟨_, _, rfl, rfl, rfl, rfl, rfl⟩⟩

/-- Witness for C8, applying the universally quantified part at the
one-node scenario. -/
theorem claim_C8_witness :
    lfl_sweep { heap := [(0, { next := none, prev := none, removed := true,
                               refcount := 0, val := 5 })],
                head := some 0, tail := some 0, ctr := 1 } =
      some ({ heap := [], head := none, tail := some 0, ctr := 1 }, [(0, 5)]) ∧
    ({ heap := [], head := none, tail := some 0, ctr := 1 } : LState).tail =
      ({ heap := [(0, { next := none, prev := none, removed := true,
                        refcount := 0, val := 5 })],
         head := some 0, tail := some 0, ctr := 1 } : LState).tail :=
  ⟨rfl, claim_C8.1 _ _ _ rfl⟩

/-! ### Claim C1, counterexample part -/

/-- The claim of C1 is false as stated: the operation sequence
`push-tail 5; mark-removed; sweep` is a single-threaded sequence of public
operations, yet at quiescence the list violates invariant 3.1
(`head == null ⇔ tail == null`): sweep reaps the sole node, nulling `head`,
but never writes `tail`, which keeps pointing at the freed node. -/
theorem claim_C1_counterexample :
    run [Op.addTail 5, Op.remove 0, Op.sweep] lfl_init =
      some { heap := [], head := none, tail := some 0, ctr := 1 } ∧
    ¬ Invariants { heap := [], head := none, tail := some 0, ctr := 1 } := by
  constructor
  · rfl
  · intro hinv
    exact absurd (hinv.1.mp rfl) (by simp)

/-! ### More heap/chain helpers -/

theorem hget_cons_self (a : Nat) (n : Node) (h : Heap) :
    hget ((a, n) :: h) a = some n := by
  simp [hget_cons]

theorem hget_cons_ne (a b : Nat) (n : Node) (h : Heap) (hne : a ≠ b) :
    hget ((a, n) :: h) b = hget h b := by
  simp [hget_cons, hne]

theorem mem_hset {h : Heap} {a : Nat} {n : Node} {q : Nat × Node}
    (hq : q ∈ hset h a n) : q ∈ h ∨ q = (a, n) := by
  induction h with
  | nil => simp [hset] at hq
  | cons p t ih =>
    obtain ⟨k, m⟩ := p
    simp only [hset] at hq
    by_cases hk : k = a
    · rw [if_pos hk] at hq
      rcases List.mem_cons.mp hq with hq | hq
      · subst hk
        exact Or.inr (by rw [hq])
      · exact Or.inl (List.mem_cons_of_mem _ hq)
    · rw [if_neg hk] at hq
      rcases List.mem_cons.mp hq with hq | hq
      · exact Or.inl (by rw [hq]; exact List.mem_cons_self _ _)
      · rcases ih hq with hq | hq
        · exact Or.inl (List.mem_cons_of_mem _ hq)
        · exact Or.inr hq

theorem chainseg_none_inv {h : Heap} {e : Option Nat} {l : List Nat}
    (hc : ChainSeg h none e l) : l = [] ∧ e = none := by
  cases hc with
  | nil => exact ⟨rfl, rfl⟩

theorem chain_getLast_decomp {h : Heap} {t : Nat} :
    ∀ {c : Option Nat} {l : List Nat}, Chain h c l → l.getLast? = some t →
    ∃ l1 tn, l = l1 ++ [t] ∧ ChainSeg h c (some t) l1 ∧
      hget h t = some tn ∧ tn.next = none := by
  intro c l
  induction l generalizing c with
  | nil => intro _ ht; simp at ht
  | cons a l ih =>
    intro hc ht
    obtain ⟨hca, n, hn, hrest⟩ := chainseg_cons_inv hc
    subst hca
    cases l with
    | nil =>
      simp only [List.getLast?_singleton, Option.some.injEq] at ht
      subst ht
      exact ⟨[], n, rfl, ChainSeg.nil _, hn, chainseg_nil_inv hrest⟩
    | cons b l' =>
      rw [List.getLast?_cons_cons] at ht
      obtain ⟨l1, tn, hl, hseg, htn, hte⟩ := ih hrest ht
      exact ⟨a :: l1, tn, by rw [hl]; rfl, ChainSeg.cons hn hseg, htn, hte⟩

/-- `PrevOk` only depends on the `prev` fields along the list. -/
theorem prevok_congr_prev {h h' : Heap} {l : List Nat} :
    ∀ {p}, (∀ a ∈ l, ∀ n', hget h' a = some n' →
      ∃ n, hget h a = some n ∧ n'.prev = n.prev) →
    PrevOk h p l → PrevOk h' p l := by
  induction l with
  | nil => intro p _ _; exact prevok_nil h' p
  | cons a l ih =>
    intro p hag hp
    rw [prevok_cons] at hp ⊢
    refine ⟨?_, ih (fun b hb => hag b (List.mem_cons_of_mem _ hb)) hp.2⟩
    intro n' hn'
    obtain ⟨n, hn, hpr⟩ := hag a (List.mem_cons_self _ _) n' hn'
    rw [hpr]
    exact hp.1 n hn

theorem wf_spine_lt {s : LState} {l : List Nat} (hwf : Wf s l) :
    ∀ b ∈ l, b < s.ctr :=
  fun b hb => hwf.keys_lt b (wf_spine_subset hwf hb)

/-! ### Preservation: tail insertion -/

/-- On a well-formed list, `lfl_add_tail_ptr` succeeds, appends the fresh
address to the spine, links the new node after the old tail, and modifies no
field of any existing node other than the old tail's `next`. -/
theorem wf_add_tail_ptr {s : LState} {l : List Nat} (hwf : Wf s l) (v r : Nat) :
    ∃ s', lfl_add_tail_ptr v r s = some (s.ctr, s') ∧
      Wf s' (l ++ [s.ctr]) ∧
      s'.ctr = s.ctr + 1 ∧
      hget s'.heap s.ctr =
        some { next := none, prev := l.getLast?, removed := false,
               refcount := r, val := v } ∧
      (∀ b, b ≠ s.ctr → ∀ nb', hget s'.heap b = some nb' →
        ∃ nb, hget s.heap b = some nb ∧ nb'.prev = nb.prev ∧
          nb'.removed = nb.removed ∧ nb'.refcount = nb.refcount ∧
          nb'.val = nb.val) := by
  cases hl : l.getLast? with
  | none =>
    have hlnil : l = [] := List.getLast?_eq_none_iff.mp hl
    subst hlnil
    have hhead : s.head = none := chainseg_nil_inv hwf.chain
    have htail : s.tail = none := by rw [hwf.tl]; rfl
    refine ⟨⟨(s.ctr, ⟨none, none, false, r, v⟩) :: s.heap,
      some s.ctr, some s.ctr, s.ctr + 1⟩, ?_, ?_, rfl, ?_, ?_⟩
    · simp [lfl_add_tail_ptr, htail, hhead]
    · refine ⟨?_, ?_, ?_, ?_, ?_, ?_, ?_⟩
      · exact ChainSeg.cons (hget_cons_self _ _ _) (ChainSeg.nil _)
      · show (some s.ctr : Option Nat) = ([] ++ [s.ctr]).getLast?
        simp
      · show PrevOk ((s.ctr, (⟨none, none, false, r, v⟩ : Node)) :: s.heap)
          none [s.ctr]
        rw [prevok_cons]
        refine ⟨?_, prevok_nil _ _⟩
        intro n hn
        rw [hget_cons_self] at hn
        cases hn
        rfl
      · simp
      · show List.Nodup (s.ctr :: hkeys s.heap)
        refine List.nodup_cons.mpr ⟨?_, hwf.keys_nd⟩
        intro hmem
        exact absurd (hwf.keys_lt _ hmem) (lt_irrefl _)
      · intro k hk
        have hk' : k ∈ s.ctr :: hkeys s.heap := hk
        show k < s.ctr + 1
        rcases List.mem_cons.mp hk' with hk' | hk'
        · omega
        · have := hwf.keys_lt k hk'
          omega
      · intro p hp hpl
        have hp' : p ∈ (s.ctr, (⟨none, none, false, r, v⟩ : Node)) :: s.heap := hp
        rcases List.mem_cons.mp hp' with hp' | hp'
        · exfalso
          apply hpl
          rw [hp']
          simp
        · exact hwf.detached p hp' (by simp)
    · exact hget_cons_self _ _ _
    · intro b hb nb' hnb'
      have hnb2 : hget ((s.ctr, (⟨none, none, false, r, v⟩ : Node)) :: s.heap) b =
          some nb' := hnb'
      rw [hget_cons_ne _ _ _ _ (Ne.symm hb)] at hnb2
      exact ⟨nb', hnb2, rfl, rfl, rfl, rfl⟩
  | some t =>
    obtain ⟨l1, tn, hldec, hseg, htn, htnext⟩ :=
      chain_getLast_decomp hwf.chain hl
    have htail : s.tail = some t := by rw [hwf.tl, hl]
    have htmem : t ∈ l := by rw [hldec]; simp
    have hbne : ∀ b ∈ l, b ≠ s.ctr := by
      intro b hb
      have := wf_spine_lt hwf b hb
      omega
    have htne : t ≠ s.ctr := hbne t htmem
    have hget_t' : hget ((s.ctr, (⟨none, some t, false, r, v⟩ : Node))
        :: hset s.heap t { tn with next := some s.ctr }) t =
        some { tn with next := some s.ctr } := by
      rw [hget_cons_ne _ _ _ _ htne.symm, hget_hset_eq _ _ tn _ htn]
    have hget_frame : ∀ b ∈ l1, hget ((s.ctr, (⟨none, some t, false, r, v⟩ : Node))
        :: hset s.heap t { tn with next := some s.ctr }) b = hget s.heap b := by
      intro b hb
      have hbl : b ∈ l := by rw [hldec]; exact List.mem_append_left _ hb
      have hbt : b ≠ t := by
        intro hbt
        subst hbt
        have hnd := hwf.nd
        rw [hldec] at hnd
        exact (List.disjoint_of_nodup_append hnd) hb (by simp)
      rw [hget_cons_ne _ _ _ _ (Ne.symm (hbne b hbl)), hget_hset_ne _ _ _ _ hbt]
    refine ⟨⟨(s.ctr, ⟨none, some t, false, r, v⟩)
      :: hset s.heap t { tn with next := some s.ctr },
      s.head, some s.ctr, s.ctr + 1⟩, ?_, ?_, rfl, ?_, ?_⟩
    · simp [lfl_add_tail_ptr, htail, htn, htnext]
    · refine ⟨?_, ?_, ?_, ?_, ?_, ?_, ?_⟩
      · show Chain ((s.ctr, (⟨none, some t, false, r, v⟩ : Node))
          :: hset s.heap t { tn with next := some s.ctr }) s.head (l ++ [s.ctr])
        rw [hldec, List.append_assoc]
        refine chainseg_append (chainseg_congr hget_frame hseg) ?_
        refine ChainSeg.cons hget_t' ?_
        exact ChainSeg.cons (hget_cons_self _ _ _) (ChainSeg.nil _)
      · exact (List.getLast?_concat l).symm
      · show PrevOk ((s.ctr, (⟨none, some t, false, r, v⟩ : Node))
          :: hset s.heap t { tn with next := some s.ctr }) none (l ++ [s.ctr])
        rw [prevok_append]
        constructor
        · refine prevok_congr_prev ?_ hwf.prevok
          intro a ha n' hn'
          by_cases hat : a = t
          · subst hat
            rw [hget_t'] at hn'
            cases hn'
            exact ⟨tn, htn, rfl⟩
          · rw [hget_cons_ne _ _ _ _ (Ne.symm (hbne a ha)),
              hget_hset_ne _ _ _ _ hat] at hn'
            exact ⟨n', hn', rfl⟩
        · have hlastc : lastc none l = some t := by
            unfold lastc
            rw [hl]
          rw [hlastc, prevok_cons]
          refine ⟨?_, prevok_nil _ _⟩
          intro n hn
          rw [hget_cons_self] at hn
          cases hn
          rfl
      · refine List.Nodup.append hwf.nd (List.nodup_singleton _) ?_
        intro b hb hb'
        rcases List.mem_singleton.mp hb' with rfl
        exact hbne _ hb rfl
      · show List.Nodup (s.ctr :: hkeys (hset s.heap t { tn with next := some s.ctr }))
        rw [hkeys_hset]
        refine List.nodup_cons.mpr ⟨?_, hwf.keys_nd⟩
        intro hmem
        exact absurd (hwf.keys_lt _ hmem) (lt_irrefl _)
      · intro k hk
        have hk' : k ∈ s.ctr :: hkeys (hset s.heap t { tn with next := some s.ctr }) := hk
        rw [hkeys_hset] at hk'
        show k < s.ctr + 1
        rcases List.mem_cons.mp hk' with hk' | hk'
        · omega
        · have := hwf.keys_lt k hk'
          omega
      · intro p hp hpl
        have hp' : p ∈ (s.ctr, (⟨none, some t, false, r, v⟩ : Node))
            :: hset s.heap t { tn with next := some s.ctr } := hp
        rcases List.mem_cons.mp hp' with hp' | hp'
        · exfalso
          apply hpl
          rw [hp']
          exact List.mem_append_right _ (by simp)
        · rcases mem_hset hp' with hp2 | hp2
          · exact hwf.detached p hp2 (fun hm => hpl (List.mem_append_left _ hm))
          · exfalso
            apply hpl
            rw [hp2]
            exact List.mem_append_left _ htmem
    · exact hget_cons_self _ _ _
    · intro b hb nb' hnb'
      have hnb2 : hget ((s.ctr, (⟨none, some t, false, r, v⟩ : Node))
          :: hset s.heap t { tn with next := some s.ctr }) b = some nb' := hnb'
      rw [hget_cons_ne _ _ _ _ (Ne.symm hb)] at hnb2
      by_cases hbt : b = t
      · subst hbt
        rw [hget_hset_eq _ _ tn _ htn] at hnb2
        cases hnb2
        exact ⟨tn, htn, rfl, rfl, rfl, rfl⟩
      · rw [hget_hset_ne _ _ _ _ hbt] at hnb2
        exact ⟨nb', hnb2, rfl, rfl, rfl, rfl⟩

/-- `lfl_add_tail` is `lfl_add_tail_ptr` with a zero refcount (a `calloc`
node). -/
theorem add_tail_eq_ptr (v : Nat) (s : LState) :
    lfl_add_tail v s = lfl_add_tail_ptr v 0 s := rfl

/-- `lfl_add_head` is `lfl_add_head_ptr` with a zero refcount. -/
theorem add_head_eq_ptr (v : Nat) (s : LState) :
    lfl_add_head v s = lfl_add_head_ptr v 0 s := rfl

/-- `ChainSeg` only depends on the `next` fields along the list. -/
theorem chainseg_congr_next {h h' : Heap} {c e : Option Nat} {l : List Nat}
    (hagree : ∀ a ∈ l, ∀ n', hget h' a = some n' →
      ∃ n, hget h a = some n ∧ n'.next = n.next)
    (hagree2 : ∀ a ∈ l, ∀ n, hget h a = some n → ∃ n', hget h' a = some n')
    (hc : ChainSeg h c e l) : ChainSeg h' c e l := by
  induction hc with
  | nil c => exact ChainSeg.nil c
  | cons hga hrest ih =>
    rename_i a n e l
    obtain ⟨n', hn'⟩ := hagree2 a (List.mem_cons_self _ _) n hga
    obtain ⟨m, hm, hnext⟩ := hagree a (List.mem_cons_self _ _) n' hn'
    rw [hga] at hm
    cases hm
    refine ChainSeg.cons hn' ?_
    rw [hnext]
    exact ih (fun b hb => hagree b (List.mem_cons_of_mem _ hb))
      (fun b hb => hagree2 b (List.mem_cons_of_mem _ hb))

theorem chainseg_some_inv {h : Heap} {a : Nat} {e : Option Nat} {l : List Nat}
    (hc : ChainSeg h (some a) e l) :
    (l = [] ∧ e = some a) ∨
      ∃ l2 n, l = a :: l2 ∧ hget h a = some n ∧ ChainSeg h n.next e l2 := by
  cases hc with
  | nil => exact Or.inl ⟨rfl, rfl⟩
  | cons hga hrest => exact Or.inr ⟨_, _, rfl, hga, hrest⟩

/-! ### Preservation: head insertion -/

/-- On a well-formed list, `lfl_add_head_ptr` succeeds, prepends the fresh
address to the spine, links the old head's `prev` to the new node, and
modifies no other field of any existing node. -/
theorem wf_add_head_ptr {s : LState} {l : List Nat} (hwf : Wf s l) (v r : Nat) :
    ∃ s', lfl_add_head_ptr v r s = some (s.ctr, s') ∧
      Wf s' (s.ctr :: l) ∧
      s'.ctr = s.ctr + 1 ∧
      hget s'.heap s.ctr =
        some { next := s.head, prev := none, removed := false,
               refcount := r, val := v } ∧
      (∀ b, b ≠ s.ctr → ∀ nb', hget s'.heap b = some nb' →
        ∃ nb, hget s.heap b = some nb ∧ nb'.next = nb.next ∧
          nb'.removed = nb.removed ∧ nb'.refcount = nb.refcount ∧
          nb'.val = nb.val) := by
  have hbne : ∀ b ∈ l, b ≠ s.ctr := by
    intro b hb
    have := wf_spine_lt hwf b hb
    omega
  cases hh : s.head with
  | none =>
    have hlnil : l = [] := by
      have := hwf.chain
      rw [hh] at this
      exact (chainseg_none_inv this).1
    subst hlnil
    have htail : s.tail = none := by rw [hwf.tl]; rfl
    refine ⟨⟨(s.ctr, ⟨none, none, false, r, v⟩) :: s.heap,
      some s.ctr, some s.ctr, s.ctr + 1⟩, ?_, ?_, rfl, ?_, ?_⟩
    · simp [lfl_add_head_ptr, hh]
    · refine ⟨?_, ?_, ?_, ?_, ?_, ?_, ?_⟩
      · exact ChainSeg.cons (hget_cons_self _ _ _) (ChainSeg.nil _)
      · show (some s.ctr : Option Nat) = ([s.ctr]).getLast?
        simp
      · show PrevOk ((s.ctr, (⟨none, none, false, r, v⟩ : Node)) :: s.heap)
          none [s.ctr]
        rw [prevok_cons]
        refine ⟨?_, prevok_nil _ _⟩
        intro n hn
        rw [hget_cons_self] at hn
        cases hn
        rfl
      · simp
      · show List.Nodup (s.ctr :: hkeys s.heap)
        refine List.nodup_cons.mpr ⟨?_, hwf.keys_nd⟩
        intro hmem
        exact absurd (hwf.keys_lt _ hmem) (lt_irrefl _)
      · intro k hk
        have hk' : k ∈ s.ctr :: hkeys s.heap := hk
        show k < s.ctr + 1
        rcases List.mem_cons.mp hk' with hk' | hk'
        · omega
        · have := hwf.keys_lt k hk'
          omega
      · intro p hp hpl
        have hp' : p ∈ (s.ctr, (⟨none, none, false, r, v⟩ : Node)) :: s.heap := hp
        rcases List.mem_cons.mp hp' with hp' | hp'
        · exfalso
          apply hpl
          rw [hp']
          simp
        · exact hwf.detached p hp' (by simp)
    · exact hget_cons_self _ _ _
    · intro b hb nb' hnb'
      have hnb2 : hget ((s.ctr, (⟨none, none, false, r, v⟩ : Node)) :: s.heap) b =
          some nb' := hnb'
      rw [hget_cons_ne _ _ _ _ (Ne.symm hb)] at hnb2
      exact ⟨nb', hnb2, rfl, rfl, rfl, rfl⟩
  | some h0 =>
    have hchain := hwf.chain
    rw [hh] at hchain
    rcases chainseg_some_inv hchain with ⟨_, habs⟩ | ⟨l2, hn, hldec, hh0, hrest⟩
    · exact absurd habs (by simp)
    have hmemh0 : h0 ∈ l := by rw [hldec]; simp
    have hh0ne : h0 ≠ s.ctr := hbne h0 hmemh0
    have hget_h0' : hget ((s.ctr, (⟨some h0, none, false, r, v⟩ : Node))
        :: hset s.heap h0 { hn with prev := some s.ctr }) h0 =
        some { hn with prev := some s.ctr } := by
      rw [hget_cons_ne _ _ _ _ hh0ne.symm, hget_hset_eq _ _ hn _ hh0]
    have hframe : ∀ b, b ≠ s.ctr → b ≠ h0 →
        hget ((s.ctr, (⟨some h0, none, false, r, v⟩ : Node))
          :: hset s.heap h0 { hn with prev := some s.ctr }) b = hget s.heap b := by
      intro b hb1 hb2
      rw [hget_cons_ne _ _ _ _ (Ne.symm hb1), hget_hset_ne _ _ _ _ hb2]
    have hnd := hwf.nd
    rw [hldec] at hnd
    have hh0notl2 : h0 ∉ l2 := (List.nodup_cons.mp hnd).1
    refine ⟨⟨(s.ctr, ⟨some h0, none, false, r, v⟩)
      :: hset s.heap h0 { hn with prev := some s.ctr },
      some s.ctr, s.tail, s.ctr + 1⟩, ?_, ?_, rfl, ?_, ?_⟩
    · simp [lfl_add_head_ptr, hh, hh0]
    · refine ⟨?_, ?_, ?_, ?_, ?_, ?_, ?_⟩
      · refine ChainSeg.cons (hget_cons_self _ _ _) ?_
        show ChainSeg _ (some h0) none l
        rw [hldec]
        refine ChainSeg.cons hget_h0' ?_
        show ChainSeg _ hn.next none l2
        refine chainseg_congr ?_ hrest
        intro b hb
        have hbl : b ∈ l := by rw [hldec]; exact List.mem_cons_of_mem _ hb
        have hbh0 : b ≠ h0 := fun hbh => hh0notl2 (hbh ▸ hb)
        exact hframe b (hbne b hbl) hbh0
      · show s.tail = (s.ctr :: l).getLast?
        rw [hldec, List.getLast?_cons_cons, ← hldec]
        exact hwf.tl
      · show PrevOk ((s.ctr, (⟨some h0, none, false, r, v⟩ : Node))
          :: hset s.heap h0 { hn with prev := some s.ctr }) none (s.ctr :: l)
        rw [prevok_cons]
        constructor
        · intro n hn'
          rw [hget_cons_self] at hn'
          cases hn'
          rfl
        · rw [hldec, prevok_cons]
          constructor
          · intro n hn'
            rw [hget_h0'] at hn'
            cases hn'
            rfl
          · have hpold : PrevOk s.heap (some h0) l2 := by
              have := hwf.prevok
              rw [hldec, prevok_cons] at this
              exact this.2
            refine prevok_congr_prev ?_ hpold
            intro a ha n' hn'
            have hal : a ∈ l := by rw [hldec]; exact List.mem_cons_of_mem _ ha
            have hah0 : a ≠ h0 := fun hbh => hh0notl2 (hbh ▸ ha)
            rw [hframe a (hbne a hal) hah0] at hn'
            exact ⟨n', hn', rfl⟩
      · refine List.nodup_cons.mpr ⟨?_, hwf.nd⟩
        intro hmem
        exact hbne _ hmem rfl
      · show List.Nodup (s.ctr :: hkeys (hset s.heap h0 { hn with prev := some s.ctr }))
        rw [hkeys_hset]
        refine List.nodup_cons.mpr ⟨?_, hwf.keys_nd⟩
        intro hmem
        exact absurd (hwf.keys_lt _ hmem) (lt_irrefl _)
      · intro k hk
        have hk' : k ∈ s.ctr :: hkeys (hset s.heap h0 { hn with prev := some s.ctr }) := hk
        rw [hkeys_hset] at hk'
        show k < s.ctr + 1
        rcases List.mem_cons.mp hk' with hk' | hk'
        · omega
        · have := hwf.keys_lt k hk'
          omega
      · intro p hp hpl
        have hp' : p ∈ (s.ctr, (⟨some h0, none, false, r, v⟩ : Node))
            :: hset s.heap h0 { hn with prev := some s.ctr } := hp
        rcases List.mem_cons.mp hp' with hp' | hp'
        · exfalso
          apply hpl
          rw [hp']
          simp
        · rcases mem_hset hp' with hp2 | hp2
          · refine hwf.detached p hp2 ?_
            intro hm
            exact hpl (List.mem_cons_of_mem _ hm)
          · exfalso
            apply hpl
            rw [hp2]
            exact List.mem_cons_of_mem _ hmemh0
    · exact hget_cons_self _ _ _
    · intro b hb nb' hnb'
      have hnb2 : hget ((s.ctr, (⟨some h0, none, false, r, v⟩ : Node))
          :: hset s.heap h0 { hn with prev := some s.ctr }) b = some nb' := hnb'
      rw [hget_cons_ne _ _ _ _ (Ne.symm hb)] at hnb2
      by_cases hbh : b = h0
      · subst hbh
        rw [hget_hset_eq _ _ hn _ hh0] at hnb2
        cases hnb2
        exact ⟨hn, hh0, rfl, rfl, rfl, rfl⟩
      · rw [hget_hset_ne _ _ _ _ hbh] at hnb2
        exact ⟨nb', hnb2, rfl, rfl, rfl, rfl⟩

/-! ### Preservation: logical removal -/

/-- On any state, `lfl_remove` of an allocated address succeeds, sets only
the `removed` flag of that node, and preserves well-formedness of any
spine. -/
theorem wf_remove {s : LState} {l : List Nat} (hwf : Wf s l) {a : Nat} {n : Node}
    (hn : hget s.heap a = some n) :
    ∃ s', lfl_remove a s = some s' ∧ Wf s' l ∧
      s'.head = s.head ∧ s'.tail = s.tail ∧ s'.ctr = s.ctr ∧
      hget s'.heap a = some { n with removed := true } ∧
      (∀ b, b ≠ a → hget s'.heap b = hget s.heap b) := by
  have hs' : ∀ b, b ≠ a →
      hget (hset s.heap a { n with removed := true }) b = hget s.heap b :=
    fun b hb => hget_hset_ne _ _ _ _ hb
  have hsa : hget (hset s.heap a { n with removed := true }) a =
      some { n with removed := true } := hget_hset_eq _ _ n _ hn
  refine ⟨⟨hset s.heap a { n with removed := true }, s.head, s.tail, s.ctr⟩,
    ?_, ?_, rfl, rfl, rfl, hsa, hs'⟩
  · simp [lfl_remove, hn]
  · refine ⟨?_, hwf.tl, ?_, hwf.nd, ?_, ?_, ?_⟩
    · refine chainseg_congr_next ?_ ?_ hwf.chain
      · intro b _ n' hn'
        by_cases hba : b = a
        · subst hba
          rw [hsa] at hn'
          cases hn'
          exact ⟨n, hn, rfl⟩
        · rw [hs' b hba] at hn'
          exact ⟨n', hn', rfl⟩
      · intro b _ m hm
        by_cases hba : b = a
        · subst hba
          exact ⟨_, hsa⟩
        · rw [← hs' b hba] at hm
          exact ⟨m, hm⟩
    · refine prevok_congr_prev ?_ hwf.prevok
      intro b _ n' hn'
      by_cases hba : b = a
      · subst hba
        rw [hsa] at hn'
        cases hn'
        exact ⟨n, hn, rfl⟩
      · rw [hs' b hba] at hn'
        exact ⟨n', hn', rfl⟩
    · show List.Nodup (hkeys (hset s.heap a { n with removed := true }))
      rw [hkeys_hset]
      exact hwf.keys_nd
    · intro k hk
      have hk' : k ∈ hkeys (hset s.heap a { n with removed := true }) := hk
      rw [hkeys_hset] at hk'
      exact hwf.keys_lt k hk'
    · intro p hp hpl
      have hp' : p ∈ hset s.heap a { n with removed := true } := hp
      rcases mem_hset hp' with hp2 | hp2
      · exact hwf.detached p hp2 hpl
      · have hanotl : a ∉ l := by
          rw [hp2] at hpl
          exact hpl
        have := hwf.detached (a, n) (mem_of_hget hn) hanotl
        rw [hp2]
        exact this

/-! ### Preservation: unlink-and-free -/

theorem lastc_none (l : List Nat) : lastc none l = l.getLast? := by
  unfold lastc
  cases hl : l.getLast? with
  | none => rfl
  | some x => rfl

theorem lastc_snoc (q : Option Nat) (l1 : List Nat) (a : Nat) :
    lastc q (l1 ++ [a]) = some a := by
  unfold lastc
  rw [List.getLast?_concat]

theorem head_mem_of_chain {h : Heap} {x : Nat} {l : List Nat}
    (hc : Chain h (some x) l) : x ∈ l := by
  rcases chainseg_some_inv hc with ⟨_, habs⟩ | ⟨l2, _, hldec, _, _⟩
  · exact absurd habs (by simp)
  · rw [hldec]
    simp

theorem mem_of_getLast?_eq {l : List Nat} {t : Nat}
    (h : l.getLast? = some t) : t ∈ l :=
  List.mem_of_mem_getLast? (by rw [h]; rfl)

theorem mem_hdel {h : Heap} {a : Nat} {q : Nat × Node}
    (hq : q ∈ hdel h a) : q ∈ h ∧ q.1 ≠ a := by
  induction h with
  | nil => simp [hdel] at hq
  | cons p t ih =>
    obtain ⟨k, m⟩ := p
    simp only [hdel] at hq
    by_cases hk : k = a
    · rw [if_pos hk] at hq
      obtain ⟨hq1, hq2⟩ := ih hq
      exact ⟨List.mem_cons_of_mem _ hq1, hq2⟩
    · rw [if_neg hk] at hq
      rcases List.mem_cons.mp hq with hq | hq
      · refine ⟨by rw [hq]; exact List.mem_cons_self _ _, ?_⟩
        rw [hq]
        exact hk
      · obtain ⟨hq1, hq2⟩ := ih hq
        exact ⟨List.mem_cons_of_mem _ hq1, hq2⟩

/-- After a successful `lfl_delete` of an allocated node in a well-formed
state, some spine again witnesses well-formedness, and the counter is
unchanged. -/
theorem wf_delete {s : LState} {l : List Nat} (hwf : Wf s l) {a : Nat} {n : Node}
    (hn : hget s.heap a = some n) :
    ∃ s', lfl_delete a s = some s' ∧ (∃ l', Wf s' l') ∧ s'.ctr = s.ctr := by
  by_cases hal : a ∈ l
  case neg =>
    -- a popped (detached) node: both links are null, both CASes fail,
    -- only the free happens
    obtain ⟨hnx0, hnp0⟩ := hwf.detached (a, n) (mem_of_hget hn) hal
    have hnx : n.next = none := hnx0
    have hnp : n.prev = none := hnp0
    have hhead : ¬ s.head = some a := by
      intro hh
      cases hl0 : l with
      | nil =>
        have := hwf.chain
        rw [hl0, hh] at this
        cases this
      | cons x l2 =>
        have hc := hwf.chain
        rw [hh] at hc
        exact hal (head_mem_of_chain hc)
    have htail : ¬ s.tail = some a := by
      intro ht
      exact hal (mem_of_getLast?_eq (hwf.tl ▸ ht))
    have hframe : ∀ b ∈ l, hget (hdel s.heap a) b = hget s.heap b := by
      intro b hb
      rw [hget_hdel]
      rw [if_neg (by intro hba; exact hal (hba ▸ hb))]
    refine ⟨⟨hdel s.heap a, s.head, s.tail, s.ctr⟩, ?_, ⟨l, ?_⟩, rfl⟩
    · simp [lfl_delete, hn, hnp, hnx, hhead, htail]
    · refine ⟨?_, hwf.tl, ?_, hwf.nd, ?_, ?_, ?_⟩
      · exact chainseg_congr hframe hwf.chain
      · exact prevok_congr (fun b hb => hframe b hb) hwf.prevok
      · show List.Nodup (hkeys (hdel s.heap a))
        exact hwf.keys_nd.sublist (hkeys_hdel_sublist _ _)
      · intro k hk
        have hk' : k ∈ hkeys (hdel s.heap a) := hk
        exact hwf.keys_lt k ((hkeys_hdel_sublist _ _).mem hk')
      · intro p hp hpl
        have hp' : p ∈ hdel s.heap a := hp
        exact hwf.detached p ((hdel_sublist _ _).mem hp') hpl
  case pos =>
    obtain ⟨l1, l2, n0, hldec, hseg1, hn0, hseg2⟩ := chainseg_split hwf.chain hal
    rw [hn] at hn0
    injection hn0 with hnn
    subst hnn
    subst hldec
    have hnd := hwf.nd
    have hndm := List.nodup_middle.mp hnd
    obtain ⟨hanot, hnd12⟩ := List.nodup_cons.mp hndm
    have hdisj : l1.Disjoint l2 := List.disjoint_of_nodup_append hnd12
    have hanot1 : a ∉ l1 := fun hx => hanot (List.mem_append_left _ hx)
    have hanot2 : a ∉ l2 := fun hx => hanot (List.mem_append_right _ hx)
    have hpok := hwf.prevok
    rw [prevok_append, prevok_cons] at hpok
    have hprev : n.prev = lastc none l1 := hpok.2.1 n hn
    have hpok1 : PrevOk s.heap none l1 := hpok.1
    have hpok2 : PrevOk s.heap (some a) l2 := hpok.2.2
    have htl := hwf.tl
    rcases List.eq_nil_or_concat l1 with rfl | ⟨l1', p, hcc⟩
    · -- a is the head of the list
      have hhead : s.head = some a := chainseg_nil_inv hseg1
      have hprevn : n.prev = none := by
        rw [hprev]
        rfl
      cases l2 with
      | nil =>
        -- a is the sole element
        have hnextn : n.next = none := chainseg_nil_inv hseg2
        have htla : s.tail = some a := by
          rw [htl]
          simp
        refine ⟨⟨hdel s.heap a, none, none, s.ctr⟩, ?_, ⟨[], ?_⟩, rfl⟩
        · simp [lfl_delete, hn, hprevn, hnextn, hhead, htla]
        · refine ⟨ChainSeg.nil _, rfl, prevok_nil _ _, List.nodup_nil, ?_, ?_, ?_⟩
          · show List.Nodup (hkeys (hdel s.heap a))
            exact hwf.keys_nd.sublist (hkeys_hdel_sublist _ _)
          · intro k hk
            have hk' : k ∈ hkeys (hdel s.heap a) := hk
            exact hwf.keys_lt k ((hkeys_hdel_sublist _ _).mem hk')
          · intro q hq _
            have hq' : q ∈ hdel s.heap a := hq
            obtain ⟨hq1, hq2⟩ := mem_hdel hq'
            refine hwf.detached q hq1 ?_
            simpa using hq2
      | cons b l2' =>
        -- a is the head, with successor b
        obtain ⟨hnb, bn, hgb, hseg2'⟩ := chainseg_cons_inv hseg2
        have hbprev : bn.prev = some a := by
          rw [prevok_cons] at hpok2
          exact hpok2.1 bn hgb
        have hpokb : PrevOk s.heap (some b) l2' := by
          rw [prevok_cons] at hpok2
          exact hpok2.2
        have hba : b ≠ a := by
          intro hx
          exact hanot2 (by rw [← hx]; exact List.mem_cons_self _ _)
        have hnd2 := hnd12
        simp only [List.nil_append] at hnd2
        have hbnotl2 : b ∉ l2' := (List.nodup_cons.mp hnd2).1
        have hgb2 : hget (hset s.heap b { bn with prev := none }) b =
            some { bn with prev := none } := hget_hset_eq _ _ bn _ hgb
        have hframe : ∀ c, c ≠ a → c ≠ b →
            hget (hdel (hset s.heap b { bn with prev := none }) a) c =
              hget s.heap c := by
          intro c hc1 hc2
          rw [hget_hdel, if_neg hc1, hget_hset_ne _ _ _ _ hc2]
        refine ⟨⟨hdel (hset s.heap b { bn with prev := none }) a,
          some b, s.tail, s.ctr⟩, ?_, ⟨b :: l2', ?_⟩, rfl⟩
        · simp [lfl_delete, hn, hprevn, hnb, hhead, cas_prev, hgb, hbprev]
        · refine ⟨?_, ?_, ?_, hnd2, ?_, ?_, ?_⟩
          · refine ChainSeg.cons (a := b) (n := { bn with prev := none }) ?_ ?_
            · rw [hget_hdel, if_neg hba, hgb2]
            · show ChainSeg _ bn.next none l2'
              refine chainseg_congr ?_ hseg2'
              intro c hc
              have hca : c ≠ a := fun hx => hanot2 (by rw [← hx]; exact List.mem_cons_of_mem _ hc)
              have hcb : c ≠ b := fun hx => hbnotl2 (hx ▸ hc)
              exact hframe c hca hcb
          · show s.tail = (b :: l2').getLast?
            rw [htl]
            simp
          · show PrevOk _ none (b :: l2')
            rw [prevok_cons]
            constructor
            · intro nn hnn
              rw [hget_hdel, if_neg hba, hgb2] at hnn
              cases hnn
              rfl
            · refine prevok_congr_prev ?_ hpokb
              intro c hc n' hn'
              have hca : c ≠ a := fun hx => hanot2 (by rw [← hx]; exact List.mem_cons_of_mem _ hc)
              have hcb : c ≠ b := fun hx => hbnotl2 (hx ▸ hc)
              rw [hframe c hca hcb] at hn'
              exact ⟨n', hn', rfl⟩
          · show List.Nodup (hkeys (hdel (hset s.heap b { bn with prev := none }) a))
            refine List.Nodup.sublist (hkeys_hdel_sublist _ _) ?_
            rw [hkeys_hset]
            exact hwf.keys_nd
          · intro k hk
            have hk' : k ∈ hkeys (hdel (hset s.heap b { bn with prev := none }) a) := hk
            have hk2 := (hkeys_hdel_sublist _ _).mem hk'
            rw [hkeys_hset] at hk2
            exact hwf.keys_lt k hk2
          · intro q hq hql
            have hq' : q ∈ hdel (hset s.heap b { bn with prev := none }) a := hq
            obtain ⟨hq1, hq2⟩ := mem_hdel hq'
            rcases mem_hset hq1 with hq3 | hq3
            · refine hwf.detached q hq3 ?_
              intro hx
              simp only [List.nil_append] at hx
              rcases List.mem_cons.mp hx with hx | hx
              · exact hq2 hx
              · exact hql hx
            · exfalso
              apply hql
              rw [hq3]
              exact List.mem_cons_self _ _
    · -- a has a predecessor p (the last element of l1 = l1' ++ [p])
      rw [List.concat_eq_append] at hcc
      subst hcc
      obtain ⟨pn, hseg1', hpn, hpnext⟩ := chainseg_snoc_inv hseg1
      have hprevp : n.prev = some p := by rw [hprev, lastc_snoc]
      have hpmem : p ∈ l1' ++ [p] := by simp
      have hpa : p ≠ a := fun hx => hanot1 (hx ▸ hpmem)
      obtain ⟨hndl1, hndl2, hd12⟩ := List.nodup_append.mp hnd12
      obtain ⟨hndl1', _, hd1p⟩ := List.nodup_append.mp hndl1
      have hpnotl1' : p ∉ l1' := fun hx => hd1p hx (by simp)
      cases l2 with
      | nil =>
        -- a is the tail, with predecessor p
        have hnextn : n.next = none := chainseg_nil_inv hseg2
        have htla : s.tail = some a := by
          rw [htl]
          exact List.getLast?_concat _
        have hp1 : hget (hset s.heap p { pn with next := none }) p =
            some { pn with next := none } := hget_hset_eq _ _ pn _ hpn
        have hframe : ∀ c, c ≠ a → c ≠ p →
            hget (hdel (hset s.heap p { pn with next := none }) a) c =
              hget s.heap c := by
          intro c hc1 hc2
          rw [hget_hdel, if_neg hc1, hget_hset_ne _ _ _ _ hc2]
        have hmeml1 : ∀ c ∈ l1', c ≠ a ∧ c ≠ p := by
          intro c hc
          exact ⟨fun hx => hanot1 (hx ▸ List.mem_append_left _ hc),
            fun hx => hpnotl1' (hx ▸ hc)⟩
        refine ⟨⟨hdel (hset s.heap p { pn with next := none }) a,
          s.head, some p, s.ctr⟩, ?_, ⟨l1' ++ [p], ?_⟩, rfl⟩
        · simp [lfl_delete, hn, hprevp, hnextn, cas_next, hpn, hpnext, htla]
        · refine ⟨?_, ?_, ?_, hndl1, ?_, ?_, ?_⟩
          · refine chainseg_append (chainseg_congr ?_ hseg1') ?_
            · intro c hc
              obtain ⟨hca, hcp⟩ := hmeml1 c hc
              exact hframe c hca hcp
            · refine ChainSeg.cons (a := p) (n := { pn with next := none }) ?_ ?_
              · rw [hget_hdel, if_neg hpa, hp1]
              · exact ChainSeg.nil _
          · show (some p : Option Nat) = (l1' ++ [p]).getLast?
            rw [List.getLast?_concat]
          · refine prevok_congr_prev ?_ hpok1
            intro c hc n' hn'
            by_cases hcp : c = p
            · subst hcp
              rw [hget_hdel, if_neg hpa, hp1] at hn'
              cases hn'
              exact ⟨pn, hpn, rfl⟩
            · have hca : c ≠ a := fun hx => hanot1 (hx ▸ hc)
              rw [hframe c hca hcp] at hn'
              exact ⟨n', hn', rfl⟩
          · show List.Nodup (hkeys (hdel (hset s.heap p { pn with next := none }) a))
            refine List.Nodup.sublist (hkeys_hdel_sublist _ _) ?_
            rw [hkeys_hset]
            exact hwf.keys_nd
          · intro k hk
            have hk' : k ∈ hkeys (hdel (hset s.heap p { pn with next := none }) a) := hk
            have hk2 := (hkeys_hdel_sublist _ _).mem hk'
            rw [hkeys_hset] at hk2
            exact hwf.keys_lt k hk2
          · intro q hq hql
            have hq' : q ∈ hdel (hset s.heap p { pn with next := none }) a := hq
            obtain ⟨hq1, hq2⟩ := mem_hdel hq'
            rcases mem_hset hq1 with hq3 | hq3
            · refine hwf.detached q hq3 ?_
              intro hx
              rcases List.mem_append.mp hx with hx | hx
              · exact hql hx
              · rcases List.mem_cons.mp hx with hx | hx
                · exact hq2 hx
                · simp at hx
            · exfalso
              apply hql
              rw [hq3]
              exact List.mem_append_right _ (by simp)
      | cons b l2' =>
        -- a is interior: predecessor p, successor b
        obtain ⟨hnb, bn, hgb, hseg2'⟩ := chainseg_cons_inv hseg2
        have hbprev : bn.prev = some a := by
          rw [prevok_cons] at hpok2
          exact hpok2.1 bn hgb
        have hpokb : PrevOk s.heap (some b) l2' := by
          rw [prevok_cons] at hpok2
          exact hpok2.2
        have hba : b ≠ a := by
          intro hx
          exact hanot2 (by rw [← hx]; exact List.mem_cons_self _ _)
        have hpb : p ∉ b :: l2' := fun hx => hd12 hpmem hx
        have hbp : b ≠ p := fun hx => hpb (by rw [← hx]; exact List.mem_cons_self _ _)
        have hbnotl2 : b ∉ l2' := (List.nodup_cons.mp hndl2).1
        have hgb1 : hget (hset s.heap p { pn with next := some b }) b = some bn := by
          rw [hget_hset_ne _ _ _ _ hbp]
          exact hgb
        have hp3 : hget (hdel (hset (hset s.heap p { pn with next := some b }) b
            { bn with prev := some p }) a) p = some { pn with next := some b } := by
          rw [hget_hdel, if_neg hpa, hget_hset_ne _ _ _ _ (Ne.symm hbp),
            hget_hset_eq _ _ pn _ hpn]
        have hb3 : hget (hdel (hset (hset s.heap p { pn with next := some b }) b
            { bn with prev := some p }) a) b = some { bn with prev := some p } := by
          rw [hget_hdel, if_neg hba, hget_hset_eq _ _ bn _ hgb1]
        have hframe : ∀ c, c ≠ a → c ≠ p → c ≠ b →
            hget (hdel (hset (hset s.heap p { pn with next := some b }) b
              { bn with prev := some p }) a) c = hget s.heap c := by
          intro c hc1 hc2 hc3
          rw [hget_hdel, if_neg hc1, hget_hset_ne _ _ _ _ hc3,
            hget_hset_ne _ _ _ _ hc2]
        have hmeml1 : ∀ c ∈ l1', c ≠ a ∧ c ≠ p ∧ c ≠ b := by
          intro c hc
          refine ⟨fun hx => hanot1 (hx ▸ List.mem_append_left _ hc),
            fun hx => hpnotl1' (hx ▸ hc), ?_⟩
          intro hx
          exact hd12 (List.mem_append_left _ (hx ▸ hc)) (List.mem_cons_self _ _)
        have hmeml2 : ∀ c ∈ l2', c ≠ a ∧ c ≠ p ∧ c ≠ b := by
          intro c hc
          refine ⟨fun hx => hanot2 (hx ▸ List.mem_cons_of_mem _ hc),
            ?_, fun hx => hbnotl2 (hx ▸ hc)⟩
          intro hx
          exact hd12 hpmem (hx ▸ List.mem_cons_of_mem _ hc)
        refine ⟨⟨hdel (hset (hset s.heap p { pn with next := some b }) b
          { bn with prev := some p }) a, s.head, s.tail, s.ctr⟩, ?_,
          ⟨(l1' ++ [p]) ++ b :: l2', ?_⟩, rfl⟩
        · simp [lfl_delete, hn, hprevp, hnb, cas_next, cas_prev, hpn, hpnext,
            hgb1, hbprev]
        · refine ⟨?_, ?_, ?_, hnd12, ?_, ?_, ?_⟩
          · rw [List.append_assoc]
            refine chainseg_append (chainseg_congr ?_ hseg1') ?_
            · intro c hc
              obtain ⟨hca, hcp, hcb⟩ := hmeml1 c hc
              exact hframe c hca hcp hcb
            · refine ChainSeg.cons (a := p) (n := { pn with next := some b }) hp3 ?_
              refine ChainSeg.cons (a := b) (n := { bn with prev := some p }) hb3 ?_
              show ChainSeg _ bn.next none l2'
              refine chainseg_congr ?_ hseg2'
              intro c hc
              obtain ⟨hca, hcp, hcb⟩ := hmeml2 c hc
              exact hframe c hca hcp hcb
          · show s.tail = ((l1' ++ [p]) ++ b :: l2').getLast?
            rw [htl, List.getLast?_append_of_ne_nil _ (by simp),
              List.getLast?_append_of_ne_nil _ (by simp),
              List.getLast?_cons_cons]
          · rw [prevok_append]
            constructor
            · refine prevok_congr_prev ?_ hpok1
              intro c hc n' hn'
              by_cases hcp : c = p
              · subst hcp
                rw [hp3] at hn'
                cases hn'
                exact ⟨pn, hpn, rfl⟩
              · have hc' : c ≠ a ∧ c ≠ b := by
                  rcases List.mem_append.mp hc with hc1 | hc1
                  · obtain ⟨hca, _, hcb⟩ := hmeml1 c hc1
                    exact ⟨hca, hcb⟩
                  · rcases List.mem_singleton.mp hc1 with rfl
                    exact ⟨hpa, Ne.symm hbp⟩
                rw [hframe c hc'.1 hcp hc'.2] at hn'
                exact ⟨n', hn', rfl⟩
            · rw [lastc_snoc, prevok_cons]
              constructor
              · intro nn hnn
                rw [hb3] at hnn
                cases hnn
                rfl
              · refine prevok_congr_prev ?_ hpokb
                intro c hc n' hn'
                obtain ⟨hca, hcp, hcb⟩ := hmeml2 c hc
                rw [hframe c hca hcp hcb] at hn'
                exact ⟨n', hn', rfl⟩
          · show List.Nodup (hkeys (hdel (hset (hset s.heap p
              { pn with next := some b }) b { bn with prev := some p }) a))
            refine List.Nodup.sublist (hkeys_hdel_sublist _ _) ?_
            rw [hkeys_hset, hkeys_hset]
            exact hwf.keys_nd
          · intro k hk
            have hk' : k ∈ hkeys (hdel (hset (hset s.heap p
              { pn with next := some b }) b { bn with prev := some p }) a) := hk
            have hk2 := (hkeys_hdel_sublist _ _).mem hk'
            rw [hkeys_hset, hkeys_hset] at hk2
            exact hwf.keys_lt k hk2
          · intro q hq hql
            have hq' : q ∈ hdel (hset (hset s.heap p { pn with next := some b }) b
              { bn with prev := some p }) a := hq
            obtain ⟨hq1, hq2⟩ := mem_hdel hq'
            rcases mem_hset hq1 with hq3 | hq3
            · rcases mem_hset hq3 with hq4 | hq4
              · refine hwf.detached q hq4 ?_
                intro hx
                rcases List.mem_append.mp hx with hx | hx
                · exact hql (List.mem_append_left _ hx)
                · rcases List.mem_cons.mp hx with hx | hx
                  · exact hq2 hx
                  · exact hql (List.mem_append_right _ hx)
              · exfalso
                apply hql
                rw [hq4]
                exact List.mem_append_left _ hpmem
            · exfalso
              apply hql
              rw [hq3]
              exact List.mem_append_right _ (List.mem_cons_self _ _)

/-! ### Preservation: pop-tail -/

/-- The predecessor walk of `lfl_pop_tail` on a chain that reaches `t`:
it stops at `t` with the walk's `prev` variable holding `t`'s predecessor. -/
theorem walkTo_spine {h : Heap} {t : Nat} :
    ∀ {l1 : List Nat} {c pr : Option Nat} {fuel : Nat},
      ChainSeg h c (some t) l1 → t ∉ l1 → l1.length < fuel →
      walkTo h t fuel pr c = some (lastc pr l1, some t) := by
  intro l1
  induction l1 with
  | nil =>
    intro c pr fuel hc _ hfuel
    have hct := chainseg_nil_inv hc
    subst hct
    cases fuel with
    | zero => omega
    | succ f =>
      unfold walkTo
      rw [if_pos rfl]
      rfl
  | cons x l1' ih =>
    intro c pr fuel hc hnot hfuel
    obtain ⟨hcx, xn, hx, hrest⟩ := chainseg_cons_inv hc
    subst hcx
    have hxt : x ≠ t := by
      intro hxt
      exact hnot (by rw [hxt]; exact List.mem_cons_self _ _)
    cases fuel with
    | zero => omega
    | succ f =>
      unfold walkTo
      rw [if_neg hxt, hx, lastc_cons]
      exact ih hrest (fun hm => hnot (List.mem_cons_of_mem _ hm))
        (by simp at hfuel; omega)

/-- `lfl_pop_tail` on a well-formed empty list returns null. -/
theorem wf_pop_tail_nil {s : LState} (hwf : Wf s []) :
    lfl_pop_tail s = some (none, s) := by
  have htail : s.tail = none := by rw [hwf.tl]; rfl
  simp [lfl_pop_tail, htail]

/-- `lfl_pop_tail` on a well-formed non-empty list unlinks and returns the
tail node (never consulting its `removed` flag), leaves a well-formed list
on the remaining spine, clears the popped node's links, and keeps it
allocated. -/
theorem wf_pop_tail_snoc {s : LState} {l1 : List Nat} {t : Nat}
    (hwf : Wf s (l1 ++ [t])) :
    ∃ s' tn, lfl_pop_tail s = some (some t, s') ∧ Wf s' l1 ∧ s'.ctr = s.ctr ∧
      hget s.heap t = some tn ∧
      hget s'.heap t = some { tn with next := none, prev := none } := by
  have htail : s.tail = some t := by rw [hwf.tl, List.getLast?_concat]
  obtain ⟨tn, hseg1, htn, htnext⟩ := chainseg_snoc_inv hwf.chain
  have hndm := List.nodup_middle.mp (hwf.nd)
  have htnot1 : t ∉ l1 := by
    have := (List.nodup_cons.mp (List.nodup_middle.mp
      (by simpa using hwf.nd))).1
    simpa using this
  have hfuel : l1.length < s.heap.length + 1 := by
    have := wf_spine_length_le hwf
    simp at this
    omega
  have hwalk : walkTo s.heap t (s.heap.length + 1) none s.head =
      some (lastc none l1, some t) := walkTo_spine hseg1 htnot1 hfuel
  have hnd1 : l1.Nodup := (List.nodup_append.mp hwf.nd).1
  cases hl1 : lastc none l1 with
  | none =>
    -- t is the sole element: l1 = []
    have hl1nil : l1 = [] := by
      rw [lastc_none] at hl1
      exact List.getLast?_eq_none_iff.mp hl1
    subst hl1nil
    have hhead : s.head = some t := chainseg_nil_inv hseg1
    have hkeys' : (hkeys (hset s.heap t { tn with next := none, prev := none })).Nodup := by
      rw [hkeys_hset]
      exact hwf.keys_nd
    refine ⟨⟨hset s.heap t { tn with next := none, prev := none },
      none, none, s.ctr⟩, tn, ?_, ?_, rfl, htn, ?_⟩
    · rw [hl1, hhead] at hwalk
      simp [lfl_pop_tail, htail, hhead, hwalk, htn]
    · refine ⟨ChainSeg.nil _, rfl, prevok_nil _ _, List.nodup_nil, hkeys', ?_, ?_⟩
      · intro k hk
        have hk' : k ∈ hkeys (hset s.heap t { tn with next := none, prev := none }) := hk
        rw [hkeys_hset] at hk'
        exact hwf.keys_lt k hk'
      · intro q hq _
        have hq' : q ∈ hset s.heap t { tn with next := none, prev := none } := hq
        by_cases hqt : q.1 = t
        · have hqg : hget (hset s.heap t { tn with next := none, prev := none }) q.1 =
              some q.2 := by
            obtain ⟨k, m⟩ := q
            exact hget_of_mem_nodup hkeys' hq'
          rw [hqt, hget_hset_eq _ _ tn _ htn] at hqg
          injection hqg with hqg
          rw [← hqg]
          exact ⟨rfl, rfl⟩
        · rcases mem_hset hq' with hq2 | hq2
          · exact hwf.detached q hq2 (by simpa using hqt)
          · exfalso
            apply hqt
            rw [hq2]
    · exact hget_hset_eq _ _ tn _ htn
  | some p =>
    -- t has a predecessor p, the last element of l1
    have hl1t : l1.getLast? = some p := by
      rw [lastc_none] at hl1
      exact hl1
    obtain ⟨l1'', hc1⟩ := List.eq_nil_or_concat l1 |>.resolve_left (by
      intro hx
      rw [hx] at hl1t
      simp at hl1t)
    obtain ⟨p', hc2⟩ := hc1
    rw [List.concat_eq_append] at hc2
    have hpp : p' = p := by
      rw [hc2, List.getLast?_concat] at hl1t
      simpa using hl1t
    rw [hpp] at hc2
    subst hc2
    obtain ⟨pn, hseg1'', hpn, hpnext⟩ := chainseg_snoc_inv hseg1
    have hpt : p ≠ t := by
      intro hx
      exact htnot1 (by rw [← hx]; simp)
    have hptm : p ∈ l1'' ++ [p] := by simp
    obtain ⟨hnd1'', _, hd1p⟩ := List.nodup_append.mp hnd1
    have hpnot1'' : p ∉ l1'' := fun hx => hd1p hx (by simp)
    have hp1 : hget (hset s.heap p { pn with next := none }) p =
        some { pn with next := none } := hget_hset_eq _ _ pn _ hpn
    have htn1 : hget (hset s.heap p { pn with next := none }) t = some tn := by
      rw [hget_hset_ne _ _ _ _ hpt.symm]
      exact htn
    have hfr : ∀ c, c ≠ p → c ≠ t →
        hget (hset (hset s.heap p { pn with next := none }) t
          { tn with next := none, prev := none }) c = hget s.heap c := by
      intro c hc1' hc2'
      rw [hget_hset_ne _ _ _ _ hc2', hget_hset_ne _ _ _ _ hc1']
    have hp2 : hget (hset (hset s.heap p { pn with next := none }) t
        { tn with next := none, prev := none }) p = some { pn with next := none } := by
      rw [hget_hset_ne _ _ _ _ hpt, hp1]
    refine ⟨⟨hset (hset s.heap p { pn with next := none }) t
      { tn with next := none, prev := none }, s.head, some p, s.ctr⟩, tn, ?_, ?_,
      rfl, htn, ?_⟩
    · rw [hl1] at hwalk
      simp [lfl_pop_tail, htail, hwalk, hpn, htn]
    · refine ⟨?_, ?_, ?_, hnd1, ?_, ?_, ?_⟩
      · refine chainseg_append (chainseg_congr ?_ hseg1'') ?_
        · intro c hc
          have hcp : c ≠ p := fun hx => hpnot1'' (hx ▸ hc)
          have hct : c ≠ t := fun hx => htnot1 (hx ▸ List.mem_append_left _ hc)
          exact hfr c hcp hct
        · refine ChainSeg.cons (a := p) (n := { pn with next := none }) hp2 ?_
          exact ChainSeg.nil _
      · show (some p : Option Nat) = (l1'' ++ [p]).getLast?
        rw [List.getLast?_concat]
      · have hpokl1 : PrevOk s.heap none (l1'' ++ [p]) := by
          have h0 := hwf.prevok
          rw [prevok_append] at h0
          exact h0.1
        refine prevok_congr_prev ?_ hpokl1
        intro c hc n' hn'
        by_cases hcp : c = p
        · subst hcp
          rw [hp2] at hn'
          cases hn'
          exact ⟨pn, hpn, rfl⟩
        · have hct : c ≠ t := fun hx => htnot1 (hx ▸ hc)
          rw [hfr c hcp hct] at hn'
          exact ⟨n', hn', rfl⟩
      · show List.Nodup (hkeys (hset (hset s.heap p { pn with next := none }) t
          { tn with next := none, prev := none }))
        rw [hkeys_hset, hkeys_hset]
        exact hwf.keys_nd
      · intro k hk
        have hk' : k ∈ hkeys (hset (hset s.heap p { pn with next := none }) t
          { tn with next := none, prev := none }) := hk
        rw [hkeys_hset, hkeys_hset] at hk'
        exact hwf.keys_lt k hk'
      · intro q hq hql
        have hkeys2 : (hkeys (hset (hset s.heap p { pn with next := none }) t
            { tn with next := none, prev := none })).Nodup := by
          rw [hkeys_hset, hkeys_hset]
          exact hwf.keys_nd
        have hq' : q ∈ hset (hset s.heap p { pn with next := none }) t
          { tn with next := none, prev := none } := hq
        by_cases hqt : q.1 = t
        · have hqg : hget (hset (hset s.heap p { pn with next := none }) t
              { tn with next := none, prev := none }) q.1 = some q.2 := by
            obtain ⟨k, m⟩ := q
            exact hget_of_mem_nodup hkeys2 hq'
          rw [hqt, hget_hset_eq _ _ tn _ htn1] at hqg
          injection hqg with hqg
          rw [← hqg]
          exact ⟨rfl, rfl⟩
        · rcases mem_hset hq' with hq2 | hq2
          · rcases mem_hset hq2 with hq3 | hq3
            · refine hwf.detached q hq3 ?_
              intro hx
              rcases List.mem_append.mp hx with hx | hx
              · exact hql hx
              · rcases List.mem_singleton.mp hx with hx
                exact hqt hx
            · exfalso
              apply hql
              rw [hq3]
              exact hptm
          · exfalso
            apply hqt
            rw [hq2]
    · exact hget_hset_eq _ _ tn _ htn1

/-! ### Preservation: clear -/

/-- The freeing walk of `lfl_clear` removes exactly the chain's nodes. -/
theorem clear_go_spec :
    ∀ {l : List Nat} {c : Option Nat} {h : Heap} {fuel : Nat},
      Chain h c l → l.Nodup → l.length < fuel →
      ∃ h', lfl_clear_go fuel c h = some h' ∧ h'.Sublist h ∧
        (∀ b, hget h' b = if b ∈ l then none else hget h b) := by
  intro l
  induction l with
  | nil =>
    intro c h fuel hc _ hfuel
    have hcn := chainseg_nil_inv hc
    subst hcn
    cases fuel with
    | zero => omega
    | succ f => exact ⟨h, rfl, List.Sublist.refl _, fun b => by simp⟩
  | cons a l' ih =>
    intro c h fuel hc hnd hfuel
    obtain ⟨hca, an, han, hrest⟩ := chainseg_cons_inv hc
    subst hca
    obtain ⟨hanot, hnd'⟩ := List.nodup_cons.mp hnd
    cases fuel with
    | zero => omega
    | succ f =>
      have hrest' : Chain (hdel h a) an.next l' := by
        refine chainseg_congr ?_ hrest
        intro b hb
        rw [hget_hdel, if_neg (by intro hba; exact hanot (hba ▸ hb))]
      obtain ⟨h', hrun, hsub, hspec⟩ :=
        ih hrest' hnd' (show l'.length < f by simp at hfuel; omega)
      refine ⟨h', ?_, hsub.trans (hdel_sublist _ _), ?_⟩
      · unfold lfl_clear_go
        rw [han]
        exact hrun
      · intro b
        rw [hspec b]
        by_cases hba : b = a
        · subst hba
          simp [hget_hdel]
        · by_cases hbl : b ∈ l'
          · simp [hbl, hba]
          · simp only [if_neg hbl, hget_hdel, if_neg hba, List.mem_cons]
            rw [if_neg (by push_neg; exact ⟨hba, hbl⟩)]

/-- `lfl_clear` on a well-formed list succeeds and leaves a well-formed
empty list (popped nodes are not freed but stay detached). -/
theorem wf_clear {s : LState} {l : List Nat} (hwf : Wf s l) :
    ∃ s', lfl_clear s = some s' ∧ Wf s' [] ∧ s'.ctr = s.ctr := by
  have hfuel : l.length < s.heap.length + 1 := by
    have := wf_spine_length_le hwf
    omega
  obtain ⟨h', hrun, hsub, hspec⟩ := clear_go_spec hwf.chain hwf.nd hfuel
  have hkeys' : (hkeys h').Nodup := hwf.keys_nd.sublist (hsub.map Prod.fst)
  refine ⟨⟨h', none, none, s.ctr⟩, ?_, ?_, rfl⟩
  · unfold lfl_clear
    rw [hrun]
    rfl
  · refine ⟨ChainSeg.nil _, rfl, prevok_nil _ _, List.nodup_nil, hkeys', ?_, ?_⟩
    · intro k hk
      have hk' : k ∈ hkeys h' := hk
      exact hwf.keys_lt k ((hsub.map Prod.fst).mem hk')
    · intro q hq _
      have hq' : q ∈ h' := hq
      have hnotl : q.1 ∉ l := by
        intro hmem
        have hg : hget h' q.1 = some q.2 := by
          obtain ⟨k, m⟩ := q
          exact hget_of_mem_nodup hkeys' hq'
        rw [hspec q.1, if_pos hmem] at hg
        cases hg
      exact hwf.detached q (hsub.mem hq') hnotl

/-! ### Per-operation effect on `removed` flags -/

/-- Sweep never changes a surviving node's `removed` flag. -/
theorem sweep_go_mono :
    ∀ fuel pr c s fins s' fins',
      lfl_sweep_go fuel pr c s fins = some (s', fins') →
      ∀ a n', hget s'.heap a = some n' →
        ∃ n, hget s.heap a = some n ∧ n'.removed = n.removed := by
  intro fuel
  induction fuel with
  | zero =>
    intro pr c s fins s' fins' h
    simp [lfl_sweep_go] at h
  | succ fuel ih =>
    intro pr c s fins s' fins' h
    cases c with
    | none =>
      simp only [lfl_sweep_go, Option.some.injEq, Prod.mk.injEq] at h
      rw [← h.1]
      exact fun a n' hn' => ⟨n', hn', rfl⟩
    | some cc =>
      unfold lfl_sweep_go at h
      split at h
      · exact absurd h (by simp)
      · split at h
        · split at h
          · split at h
            · exact absurd h (by simp)
            · split at h
              · -- unlink after p, free cc
                intro a n' hn'
                obtain ⟨n, hn, hrem⟩ := ih _ _ _ _ _ _ h a n' hn'
                rename_i x2 cn hcn hrm x1 p x0 pn hpn hpnext
                have hn2 : hget (hdel (hset s.heap p { pn with next := cn.next }) cc) a
                    = some n := hn
                rw [hget_hdel] at hn2
                by_cases hac : a = cc
                · rw [if_pos hac] at hn2
                  cases hn2
                · rw [if_neg hac] at hn2
                  by_cases hap : a = p
                  · subst hap
                    rw [hget_hset_eq _ _ pn _ hpn] at hn2
                    cases hn2
                    exact ⟨pn, hpn, hrem⟩
                  · rw [hget_hset_ne _ _ _ _ hap] at hn2
                    exact ⟨n, hn2, hrem⟩
              · exact ih _ _ _ _ _ _ h
          · split at h
            · -- free the head node cc
              intro a n' hn'
              obtain ⟨n, hn, hrem⟩ := ih _ _ _ _ _ _ h a n' hn'
              rename_i x1 cn hcn hrm x0 hhd
              have hn2 : hget (hdel s.heap cc) a = some n := hn
              rw [hget_hdel] at hn2
              by_cases hac : a = cc
              · rw [if_pos hac] at hn2
                cases hn2
              · rw [if_neg hac] at hn2
                exact ⟨n, hn2, hrem⟩
            · exact ih _ _ _ _ _ _ h
        · exact ih _ _ _ _ _ _ h

/-- The freeing walk of `lfl_clear` only removes nodes. -/
theorem clear_go_mono :
    ∀ fuel c h h',
      lfl_clear_go fuel c h = some h' →
      ∀ a n', hget h' a = some n' → hget h a = some n' := by
  intro fuel
  induction fuel with
  | zero =>
    intro c h h' hrun
    simp [lfl_clear_go] at hrun
  | succ fuel ih =>
    intro c h h' hrun
    cases c with
    | none =>
      simp only [lfl_clear_go, Option.some.injEq] at hrun
      rw [← hrun]
      exact fun a n' hn' => hn'
    | some cc =>
      unfold lfl_clear_go at hrun
      cases hg : hget h cc with
      | none => rw [hg] at hrun; simp at hrun
      | some cn =>
        rw [hg] at hrun
        intro a n' hn'
        have h2 := ih _ _ _ hrun a n' hn'
        rw [hget_hdel] at h2
        by_cases hac : a = cc
        · rw [if_pos hac] at h2
          cases h2
        · rw [if_neg hac] at h2
          exact h2

theorem cas_next_mono {h h' : Heap} {p e : Nat} {d : Option Nat}
    (hc : cas_next h p e d = some h') :
    ∀ a n', hget h' a = some n' →
      ∃ n, hget h a = some n ∧ n'.removed = n.removed := by
  unfold cas_next at hc
  cases hg : hget h p with
  | none => rw [hg] at hc; cases hc
  | some pn =>
    rw [hg] at hc
    injection hc with hc
    subst hc
    intro a n' hn'
    by_cases hcond : pn.next = some e
    · rw [if_pos hcond] at hn'
      by_cases hap : a = p
      · subst hap
        rw [hget_hset_eq _ _ pn _ hg] at hn'
        cases hn'
        exact ⟨pn, hg, rfl⟩
      · rw [hget_hset_ne _ _ _ _ hap] at hn'
        exact ⟨n', hn', rfl⟩
    · rw [if_neg hcond] at hn'
      exact ⟨n', hn', rfl⟩

theorem cas_prev_mono {h h' : Heap} {p e : Nat} {d : Option Nat}
    (hc : cas_prev h p e d = some h') :
    ∀ a n', hget h' a = some n' →
      ∃ n, hget h a = some n ∧ n'.removed = n.removed := by
  unfold cas_prev at hc
  cases hg : hget h p with
  | none => rw [hg] at hc; cases hc
  | some pn =>
    rw [hg] at hc
    injection hc with hc
    subst hc
    intro a n' hn'
    by_cases hcond : pn.prev = some e
    · rw [if_pos hcond] at hn'
      by_cases hap : a = p
      · subst hap
        rw [hget_hset_eq _ _ pn _ hg] at hn'
        cases hn'
        exact ⟨pn, hg, rfl⟩
      · rw [hget_hset_ne _ _ _ _ hap] at hn'
        exact ⟨n', hn', rfl⟩
    · rw [if_neg hcond] at hn'
      exact ⟨n', hn', rfl⟩

theorem hset_mono {h : Heap} {c : Nat} {cn cn' : Node}
    (hgc : hget h c = some cn) :
    ∀ a n', hget (hset h c cn') a = some n' → cn'.removed = cn.removed →
      ∃ n, hget h a = some n ∧ n'.removed = n.removed := by
  intro a n' hn' hc'
  by_cases hac : a = c
  · subst hac
    rw [hget_hset_eq _ _ cn _ hgc] at hn'
    cases hn'
    exact ⟨cn, hgc, hc'⟩
  · rw [hget_hset_ne _ _ _ _ hac] at hn'
    exact ⟨n', hn', rfl⟩

theorem two_hset_mono {h : Heap} {p c : Nat} {pn cn : Node}
    (hgp : hget h p = some pn) (hgc : hget h c = some cn) :
    ∀ (pn' cn' : Node) a n', hget (hset (hset h p pn') c cn') a = some n' →
      pn'.removed = pn.removed → cn'.removed = cn.removed →
      ∃ n, hget h a = some n ∧ n'.removed = n.removed := by
  intro pn' cn' a n' hn' hp' hc'
  by_cases hcp : c = p
  · subst hcp
    have hcnpn : cn = pn := by
      rw [hgp] at hgc
      injection hgc with hx
      exact hx.symm
    have hg1 : hget (hset h c pn') c = some pn' := hget_hset_eq _ _ pn _ hgp
    have hc2 : cn'.removed = pn'.removed := by rw [hc', hcnpn, hp']
    obtain ⟨n, hn, hr⟩ := hset_mono hg1 a n' hn' hc2
    obtain ⟨n2, hn2, hr2⟩ := hset_mono hgp a n hn hp'
    exact ⟨n2, hn2, by rw [hr, hr2]⟩
  · have hg1 : hget (hset h p pn') c = some cn := by
      rw [hget_hset_ne _ _ _ _ hcp]
      exact hgc
    obtain ⟨n, hn, hr⟩ := hset_mono hg1 a n' hn' hc'
    obtain ⟨n2, hn2, hr2⟩ := hset_mono hgp a n hn hp'
    exact ⟨n2, hn2, by rw [hr, hr2]⟩

/-- Every operation only grows the allocation counter, and can only set
(never clear) the `removed` flag of an already-allocated node. -/
theorem step_mono {o : Op} {s s' : LState} (h : stepOp o s = some s') :
    s.ctr ≤ s'.ctr ∧
    ∀ a n', hget s'.heap a = some n' →
      (a = s.ctr ∧ s'.ctr = s.ctr + 1) ∨
      ∃ n, hget s.heap a = some n ∧ (n.removed = true → n'.removed = true) := by
  cases o with
  | addTail v | addTailPtr v r =>
    simp only [stepOp, add_tail_eq_ptr] at h
    unfold lfl_add_tail_ptr at h
    split at h
    · split at h
      · simp only [Option.map_some', Option.some.injEq] at h
        subst h
        refine ⟨by simp, ?_⟩
        intro a n' hn'
        by_cases hactr : a = s.ctr
        · exact Or.inl ⟨hactr, rfl⟩
        · have hn2 : hget ((s.ctr, (⟨none, none, false, _, v⟩ : Node)) :: s.heap) a =
              some n' := hn'
          rw [hget_cons_ne _ _ _ _ (Ne.symm hactr)] at hn2
          exact Or.inr ⟨n', hn2, fun hx => hx⟩
      · cases h
    · split at h
      · cases h
      · split at h
        · rename_i x0 t heqt x1 tn hg hc
          simp only [Option.map_some', Option.some.injEq] at h
          subst h
          refine ⟨by simp, ?_⟩
          intro a n' hn'
          by_cases hactr : a = s.ctr
          · exact Or.inl ⟨hactr, rfl⟩
          · have hn2 : hget ((s.ctr, (⟨none, some t, false, _, v⟩ : Node))
                :: hset s.heap t { tn with next := some s.ctr }) a = some n' := hn'
            rw [hget_cons_ne _ _ _ _ (Ne.symm hactr)] at hn2
            by_cases hat : a = t
            · subst hat
              rw [hget_hset_eq _ _ tn _ hg] at hn2
              cases hn2
              exact Or.inr ⟨tn, hg, fun hx => hx⟩
            · rw [hget_hset_ne _ _ _ _ hat] at hn2
              exact Or.inr ⟨n', hn2, fun hx => hx⟩
        · cases h
  | addHead v | addHeadPtr v r =>
    simp only [stepOp, add_head_eq_ptr] at h
    unfold lfl_add_head_ptr at h
    split at h
    · simp only [Option.map_some', Option.some.injEq] at h
      subst h
      refine ⟨by simp, ?_⟩
      intro a n' hn'
      by_cases hactr : a = s.ctr
      · exact Or.inl ⟨hactr, rfl⟩
      · have hn2 : hget ((s.ctr, (⟨none, none, false, _, v⟩ : Node)) :: s.heap) a =
            some n' := hn'
        rw [hget_cons_ne _ _ _ _ (Ne.symm hactr)] at hn2
        exact Or.inr ⟨n', hn2, fun hx => hx⟩
    · split at h
      · cases h
      · rename_i x0 h0 heqh x1 hn0 hg
        simp only [Option.map_some', Option.some.injEq] at h
        subst h
        refine ⟨by simp, ?_⟩
        intro a n' hn'
        by_cases hactr : a = s.ctr
        · exact Or.inl ⟨hactr, rfl⟩
        · have hn2 : hget ((s.ctr, (⟨some h0, none, false, _, v⟩ : Node))
              :: hset s.heap h0 { hn0 with prev := some s.ctr }) a = some n' := hn'
          rw [hget_cons_ne _ _ _ _ (Ne.symm hactr)] at hn2
          by_cases hah : a = h0
          · subst hah
            rw [hget_hset_eq _ _ hn0 _ hg] at hn2
            cases hn2
            exact Or.inr ⟨hn0, hg, fun hx => hx⟩
          · rw [hget_hset_ne _ _ _ _ hah] at hn2
            exact Or.inr ⟨n', hn2, fun hx => hx⟩
  | remove b =>
    simp only [stepOp] at h
    unfold lfl_remove at h
    cases hg : hget s.heap b with
    | none => rw [hg] at h; cases h
    | some n0 =>
      rw [hg] at h
      injection h with h
      subst h
      refine ⟨le_refl _, ?_⟩
      intro a n' hn'
      have hn2 : hget (hset s.heap b { n0 with removed := true }) a = some n' := hn'
      by_cases hab : a = b
      · subst hab
        rw [hget_hset_eq _ _ n0 _ hg] at hn2
        cases hn2
        exact Or.inr ⟨n0, hg, fun _ => rfl⟩
      · rw [hget_hset_ne _ _ _ _ hab] at hn2
        exact Or.inr ⟨n', hn2, fun hx => hx⟩
  | delete b =>
    simp only [stepOp] at h
    unfold lfl_delete at h
    cases hg : hget s.heap b with
    | none => rw [hg] at h; cases h
    | some n0 =>
      simp only [hg] at h
      -- step 1
      rcases hs1 : (match n0.prev with
        | some p => (cas_next s.heap p b n0.next).map
            (fun hh => { s with heap := hh })
        | none => some (if s.head = some b then { s with head := n0.next } else s)) with _ | s1
      · rw [hs1] at h; cases h
      simp only [hs1] at h
      have hstep1 : s1.ctr = s.ctr ∧ ∀ a n', hget s1.heap a = some n' →
          ∃ n, hget s.heap a = some n ∧ n'.removed = n.removed := by
        cases hp : n0.prev with
        | some p =>
          simp only [hp] at hs1
          cases hcn : cas_next s.heap p b n0.next with
          | none => rw [hcn] at hs1; cases hs1
          | some h1 =>
            rw [hcn] at hs1
            injection hs1 with hs1
            subst hs1
            exact ⟨rfl, cas_next_mono hcn⟩
        | none =>
          simp only [hp] at hs1
          injection hs1 with hs1
          subst hs1
          by_cases hhb : s.head = some b
          · rw [if_pos hhb]
            exact ⟨rfl, fun a n' hn' => ⟨n', hn', rfl⟩⟩
          · rw [if_neg hhb]
            exact ⟨rfl, fun a n' hn' => ⟨n', hn', rfl⟩⟩
      -- step 2
      rcases hs2 : (match n0.next with
        | some m => (cas_prev s1.heap m b n0.prev).map
            (fun hh => { s1 with heap := hh })
        | none => some (if s1.tail = some b then { s1 with tail := n0.prev } else s1)) with _ | s2
      · rw [hs2] at h; cases h
      simp only [hs2] at h
      have hstep2 : s2.ctr = s1.ctr ∧ ∀ a n', hget s2.heap a = some n' →
          ∃ n, hget s1.heap a = some n ∧ n'.removed = n.removed := by
        cases hx : n0.next with
        | some m =>
          simp only [hx] at hs2
          cases hcp : cas_prev s1.heap m b n0.prev with
          | none => rw [hcp] at hs2; cases hs2
          | some h2 =>
            rw [hcp] at hs2
            injection hs2 with hs2
            subst hs2
            exact ⟨rfl, cas_prev_mono hcp⟩
        | none =>
          simp only [hx] at hs2
          injection hs2 with hs2
          subst hs2
          by_cases htb : s1.tail = some b
          · rw [if_pos htb]
            exact ⟨rfl, fun a n' hn' => ⟨n', hn', rfl⟩⟩
          · rw [if_neg htb]
            exact ⟨rfl, fun a n' hn' => ⟨n', hn', rfl⟩⟩
      injection h with h
      subst h
      refine ⟨by rw [show ({ s2 with heap := hdel s2.heap b } : LState).ctr = s2.ctr from rfl,
        hstep2.1, hstep1.1], ?_⟩
      intro a n' hn'
      have hn2 : hget (hdel s2.heap b) a = some n' := hn'
      rw [hget_hdel] at hn2
      by_cases hab : a = b
      · rw [if_pos hab] at hn2
        cases hn2
      · rw [if_neg hab] at hn2
        obtain ⟨nA, hA, hA2⟩ := hstep2.2 a n' hn2
        obtain ⟨nB, hB, hB2⟩ := hstep1.2 a nA hA
        exact Or.inr ⟨nB, hB, fun hx => by rw [hA2, hB2]; exact hx⟩
  | popHead =>
    simp only [stepOp] at h
    unfold lfl_pop_head at h
    cases hh : s.head with
    | none =>
      rw [hh] at h
      simp only [Option.map_some', Option.some.injEq] at h
      subst h
      exact ⟨le_refl _, fun a n' hn' => Or.inr ⟨n', hn', fun hx => hx⟩⟩
    | some c =>
      simp only [hh] at h
      cases hg : hget s.heap c with
      | none => rw [hg] at h; cases h
      | some cn =>
        simp only [hg, Option.map_some', Option.some.injEq] at h
        subst h
        refine ⟨le_refl _, ?_⟩
        intro a n' hn'
        have hn2 : hget (hset s.heap c { cn with next := none, prev := none }) a =
            some n' := hn'
        by_cases hac : a = c
        · subst hac
          rw [hget_hset_eq _ _ cn _ hg] at hn2
          cases hn2
          exact Or.inr ⟨cn, hg, fun hx => hx⟩
        · rw [hget_hset_ne _ _ _ _ hac] at hn2
          exact Or.inr ⟨n', hn2, fun hx => hx⟩
  | popTail =>
    simp only [stepOp] at h
    unfold lfl_pop_tail at h
    split at h
    · simp only [Option.map_some', Option.some.injEq] at h
      subst h
      exact ⟨le_refl _, fun a n' hn' => Or.inr ⟨n', hn', fun hx => hx⟩⟩
    · split at h
      · cases h
      · simp only [Option.map_some', Option.some.injEq] at h
        subst h
        exact ⟨le_refl _, fun a n' hn' => Or.inr ⟨n', hn', fun hx => hx⟩⟩
      · split at h
        · split at h
          · rename_i c x2 p hw2 x1 x0 pn cn hgp hgc
            simp only [Option.map_some', Option.some.injEq] at h
            subst h
            refine ⟨le_refl _, ?_⟩
            intro a n' hn'
            obtain ⟨n, hn, hr⟩ := two_hset_mono hgp hgc _ _ a n' hn' rfl rfl
            exact Or.inr ⟨n, hn, fun hx => by rw [hr]; exact hx⟩
          · cases h
        · split at h
          · split at h
            · cases h
            · rename_i c x2 hw2 hhb x1 cn hgc
              simp only [Option.map_some', Option.some.injEq] at h
              subst h
              refine ⟨le_refl _, ?_⟩
              intro a n' hn'
              obtain ⟨n, hn, hr⟩ := hset_mono hgc a n' hn' rfl
              exact Or.inr ⟨n, hn, fun hx => by rw [hr]; exact hx⟩
          · cases h
  | sweep =>
    simp only [stepOp] at h
    cases hs : lfl_sweep s with
    | none => rw [hs] at h; cases h
    | some q =>
      rw [hs] at h
      obtain ⟨s0, fins⟩ := q
      simp only [Option.map_some', Option.some.injEq] at h
      subst h
      refine ⟨le_of_eq (sweep_go_tail_ctr _ _ _ _ _ _ _ hs).2.symm, ?_⟩
      intro a n' hn'
      obtain ⟨n, hn, hrem⟩ := sweep_go_mono _ _ _ _ _ _ _ hs a n' hn'
      exact Or.inr ⟨n, hn, fun hx => by rw [hrem]; exact hx⟩
  | clear =>
    simp only [stepOp] at h
    unfold lfl_clear at h
    cases hc : lfl_clear_go (s.heap.length + 1) s.head s.heap with
    | none => rw [hc] at h; cases h
    | some h' =>
      rw [hc] at h
      simp only [Option.map_some', Option.some.injEq] at h
      subst h
      exact ⟨le_refl _, fun a n' hn' =>
        Or.inr ⟨n', clear_go_mono _ _ _ _ hc a n' hn', fun hx => hx⟩⟩

/-! ### Run-level invariants -/

theorem hget_isSome_of_mem {h : Heap} {k : Nat} (hk : k ∈ hkeys h) :
    ∃ n, hget h k = some n := by
  induction h with
  | nil => simp [hkeys] at hk
  | cons p t ih =>
    obtain ⟨k0, m⟩ := p
    by_cases hkk : k0 = k
    · exact ⟨m, by simp [hget, hkk]⟩
    · rw [hkeys_cons] at hk
      rcases List.mem_cons.mp hk with hk | hk
      · exact absurd hk.symm hkk
      · obtain ⟨n, hn⟩ := ih hk
        exact ⟨n, by simp [hget, hkk, hn]⟩

theorem step_keysbounded {o : Op} {s s' : LState} (h : stepOp o s = some s')
    (hb : ∀ k ∈ hkeys s.heap, k < s.ctr) :
    ∀ k ∈ hkeys s'.heap, k < s'.ctr := by
  intro k hk
  obtain ⟨n', hn'⟩ := hget_isSome_of_mem hk
  rcases (step_mono h).2 k n' hn' with ⟨rfl, hc⟩ | ⟨n, hn, _⟩
  · omega
  · have h1 := hb k (mem_hkeys_of_hget hn)
    have h2 := (step_mono h).1
    omega

theorem run_keysbounded :
    ∀ ops (s s' : LState), run ops s = some s' →
      (∀ k ∈ hkeys s.heap, k < s.ctr) → ∀ k ∈ hkeys s'.heap, k < s'.ctr := by
  intro ops
  induction ops with
  | nil =>
    intro s s' hrun hb
    simp only [run, Option.some.injEq] at hrun
    subst hrun
    exact hb
  | cons o ops ih =>
    intro s s' hrun hb
    simp only [run] at hrun
    cases hs : stepOp o s with
    | none => rw [hs] at hrun; cases hrun
    | some s1 =>
      rw [hs] at hrun
      simp only [Option.some_bind] at hrun
      exact ih s1 s' hrun (step_keysbounded hs hb)

theorem run_mono :
    ∀ ops (s s' : LState), run ops s = some s' →
      s.ctr ≤ s'.ctr ∧
      ∀ a n', a < s.ctr → hget s'.heap a = some n' →
        ∃ n, hget s.heap a = some n ∧ (n.removed = true → n'.removed = true) := by
  intro ops
  induction ops with
  | nil =>
    intro s s' hrun
    simp only [run, Option.some.injEq] at hrun
    subst hrun
    exact ⟨le_refl _, fun a n' _ hn' => ⟨n', hn', fun hx => hx⟩⟩
  | cons o ops ih =>
    intro s s' hrun
    simp only [run] at hrun
    cases hs : stepOp o s with
    | none => rw [hs] at hrun; cases hrun
    | some s1 =>
      rw [hs] at hrun
      simp only [Option.some_bind] at hrun
      obtain ⟨hc1, hm1⟩ := step_mono hs
      obtain ⟨hc2, hm2⟩ := ih s1 s' hrun
      refine ⟨le_trans hc1 hc2, ?_⟩
      intro a n' ha hn'
      obtain ⟨nm, hnm, himp2⟩ := hm2 a n' (by omega) hn'
      rcases hm1 a nm hnm with ⟨rfl, _⟩ | ⟨n, hn, himp1⟩
      · omega
      · exact ⟨n, hn, fun hx => himp2 (himp1 hx)⟩

/-- Invariant 3.5 (removed is monotonic) holds along every run from the
initial list — not only the sweep/pop-head-free ones. -/
theorem removed_monotonic_all (ops : List Op) : RemovedMonotonic ops := by
  intro ops1 ops2 s1 s2 _ hrun1 hrun2 a n1 n2 hg1 hrm hg2
  have hb1 : ∀ k ∈ hkeys s1.heap, k < s1.ctr := by
    refine run_keysbounded ops1 _ _ hrun1 ?_
    intro k hk
    simp [lfl_init, hkeys] at hk
  have ha : a < s1.ctr := hb1 a (mem_hkeys_of_hget hg1)
  obtain ⟨-, h2⟩ := run_mono ops2 s1 s2 hrun2
  obtain ⟨n, hn, himp⟩ := h2 a n2 ha hg2
  rw [hg1] at hn
  injection hn with hn
  rw [← hn] at himp
  exact himp hrm

/-- Single-step preservation of well-formedness, for every operation other
than sweep and pop-head. -/
theorem stepOp_wf {o : Op} {s s' : LState}
    (ho : o ≠ Op.sweep ∧ o ≠ Op.popHead) (hw : WfL s)
    (h : stepOp o s = some s') : WfL s' := by
  obtain ⟨l, hwf⟩ := hw
  cases o with
  | addTail v =>
    simp only [stepOp, add_tail_eq_ptr] at h
    obtain ⟨s0, heq, hwf', -, -, -⟩ := wf_add_tail_ptr hwf v 0
    rw [heq] at h
    simp only [Option.map_some', Option.some.injEq] at h
    subst h
    exact ⟨_, hwf'⟩
  | addTailPtr v r =>
    simp only [stepOp] at h
    obtain ⟨s0, heq, hwf', -, -, -⟩ := wf_add_tail_ptr hwf v r
    rw [heq] at h
    simp only [Option.map_some', Option.some.injEq] at h
    subst h
    exact ⟨_, hwf'⟩
  | addHead v =>
    simp only [stepOp, add_head_eq_ptr] at h
    obtain ⟨s0, heq, hwf', -, -, -⟩ := wf_add_head_ptr hwf v 0
    rw [heq] at h
    simp only [Option.map_some', Option.some.injEq] at h
    subst h
    exact ⟨_, hwf'⟩
  | addHeadPtr v r =>
    simp only [stepOp] at h
    obtain ⟨s0, heq, hwf', -, -, -⟩ := wf_add_head_ptr hwf v r
    rw [heq] at h
    simp only [Option.map_some', Option.some.injEq] at h
    subst h
    exact ⟨_, hwf'⟩
  | remove a =>
    simp only [stepOp] at h
    cases hg : hget s.heap a with
    | none => unfold lfl_remove at h; rw [hg] at h; cases h
    | some n =>
      obtain ⟨s0, heq, hwf', -⟩ := wf_remove hwf hg
      rw [heq] at h
      injection h with h
      subst h
      exact ⟨_, hwf'⟩
  | delete a =>
    simp only [stepOp] at h
    cases hg : hget s.heap a with
    | none => unfold lfl_delete at h; rw [hg] at h; cases h
    | some n =>
      obtain ⟨s0, heq, hwfl', -⟩ := wf_delete hwf hg
      rw [heq] at h
      injection h with h
      subst h
      exact hwfl'
  | popTail =>
    simp only [stepOp] at h
    rcases List.eq_nil_or_concat l with rfl | ⟨l1, t, hc⟩
    · rw [wf_pop_tail_nil hwf] at h
      simp only [Option.map_some', Option.some.injEq] at h
      subst h
      exact ⟨[], hwf⟩
    · rw [List.concat_eq_append] at hc
      subst hc
      obtain ⟨s0, tn, heq, hwf', -⟩ := wf_pop_tail_snoc hwf
      rw [heq] at h
      simp only [Option.map_some', Option.some.injEq] at h
      subst h
      exact ⟨_, hwf'⟩
  | clear =>
    simp only [stepOp] at h
    obtain ⟨s0, heq, hwf', -⟩ := wf_clear hwf
    rw [heq] at h
    injection h with h
    subst h
    exact ⟨_, hwf'⟩
  | sweep => exact absurd rfl ho.1
  | popHead => exact absurd rfl ho.2

theorem run_wf :
    ∀ ops (s s' : LState), NoSweepPopHead ops → WfL s →
      run ops s = some s' → WfL s' := by
  intro ops
  induction ops with
  | nil =>
    intro s s' _ hw hrun
    simp only [run, Option.some.injEq] at hrun
    subst hrun
    exact hw
  | cons o ops ih =>
    intro s s' hops hw hrun
    simp only [run] at hrun
    cases hs : stepOp o s with
    | none => rw [hs] at hrun; cases hrun
    | some s1 =>
      rw [hs] at hrun
      simp only [Option.some_bind] at hrun
      refine ih s1 s' (fun o' ho' => hops o' (List.mem_cons_of_mem _ ho')) ?_ hrun
      exact stepOp_wf (hops o (List.mem_cons_self _ _)) hw hs

/-! ### The structural invariants from well-formedness -/

theorem spine_links {h : Heap} :
    ∀ {l : List Nat} {c q : Option Nat},
      ChainSeg h c none l → PrevOk h q l →
      (∀ p0, q = some p0 → ∃ pn, hget h p0 = some pn ∧ pn.next = c) →
      ∀ a ∈ l, ∀ n, hget h a = some n →
        (∀ p, n.prev = some p → ∃ pn, hget h p = some pn ∧ pn.next = some a) ∧
        (∀ b, n.next = some b → ∃ bn, hget h b = some bn ∧ bn.prev = some a) := by
  intro l
  induction l with
  | nil =>
    intro c q _ _ _ a ha
    simp at ha
  | cons x l' ih =>
    intro c q hchain hpok hanchor a ha n hn
    obtain ⟨hcx, xn, hx, hrest⟩ := chainseg_cons_inv hchain
    subst hcx
    rw [prevok_cons] at hpok
    rcases List.mem_cons.mp ha with rfl | ha'
    · rw [hx] at hn
      injection hn with hn
      subst hn
      constructor
      · intro p hp
        have hq : q = some p := by
          rw [← hpok.1 xn hx]
          exact hp
        obtain ⟨pn, hpn, hpnext⟩ := hanchor p hq
        exact ⟨pn, hpn, hpnext⟩
      · intro b hb
        rcases chainseg_some_inv (hb ▸ hrest) with ⟨_, habs⟩ | ⟨l2, bn, hl'dec, hgb, -⟩
        · exact absurd habs (by simp)
        · refine ⟨bn, hgb, ?_⟩
          have hpok2 := hpok.2
          rw [hl'dec, prevok_cons] at hpok2
          exact hpok2.1 bn hgb
    · refine ih hrest hpok.2 ?_ a ha' n hn
      intro p0 hp0
      injection hp0 with hp0
      subst hp0
      exact ⟨xn, hx, rfl⟩

/-- A well-formed list satisfies the steady-state invariants of spec
section 3. -/
theorem wf_invariants {s : LState} {l : List Nat} (hwf : Wf s l) :
    Invariants s := by
  constructor
  · constructor
    · intro hh
      rw [hwf.tl]
      have hc := hwf.chain
      rw [hh] at hc
      rw [(chainseg_none_inv hc).1]
      rfl
    · intro ht
      rw [hwf.tl] at ht
      have hlnil : l = [] := List.getLast?_eq_none_iff.mp ht
      have hc := hwf.chain
      rw [hlnil] at hc
      exact chainseg_nil_inv hc
  · refine ⟨l, hwf.chain, hwf.tl, hwf.prevok, hwf.nd, ?_⟩
    intro a ha n hn
    refine spine_links hwf.chain hwf.prevok ?_ a ha n hn
    intro p0 hp0
    cases hp0

/-! ### Claim C1, amended part -/

/-- C1, amended: for every single-threaded sequence of the public operations
with sweep and pop-head excluded (sweep leaves `tail` dangling, pop-head
leaves the new head's `prev` stale — see the counterexample), the list at
quiescence satisfies all of invariants 3.1–3.7: `head` is null iff `tail`
is null, the `next`-chain from `head` lists the nodes ending at null with
`tail` last, `prev` links run backwards along it with the head's `prev`
null, every node's neighbours point back at it, no node appears twice, and
`removed` is monotonic along the run. -/
theorem claim_C1_amended (ops : List Op) (s : LState)
    (hops : NoSweepPopHead ops) (hrun : run ops lfl_init = some s) :
    Invariants s ∧ RemovedMonotonic ops := by
  refine ⟨?_, removed_monotonic_all ops⟩
  obtain ⟨l, hwf⟩ := run_wf ops lfl_init s hops ⟨[], wf_init⟩ hrun
  exact wf_invariants hwf

/-- Witness for the amended C1 on a concrete run. -/
theorem claim_C1_amended_witness :
    Invariants { heap := [(1, { next := none, prev := none, removed := false,
                                refcount := 0, val := 2 }),
                         (0, { next := none, prev := none, removed := true,
                               refcount := 0, val := 1 })],
                 head := some 0, tail := some 0, ctr := 2 } ∧
    RemovedMonotonic [Op.addTail 1, Op.addTail 2, Op.remove 0, Op.popTail] :=
  claim_C1_amended [Op.addTail 1, Op.addTail 2, Op.remove 0, Op.popTail] _
    (by unfold NoSweepPopHead; decide) rfl

/-! ### Claim C9: pop-head leaves the new head's `prev` stale -/

/-- C9: on a well-formed list of two or more nodes, `lfl_pop_head` unlinks
and returns the head and writes no field of any remaining node: every
address other than the popped one maps to the very same node record, and in
particular the new head's `prev` field still holds the pointer to the popped
node. -/
theorem claim_C9 (s : LState) (a b : Nat) (l' : List Nat)
    (hwf : Wf s (a :: b :: l')) :
    ∃ s', lfl_pop_head s = some (some a, s') ∧ s'.head = some b ∧
      s'.tail = s.tail ∧
      (∀ c, c ≠ a → hget s'.heap c = hget s.heap c) ∧
      ∃ bn, hget s'.heap b = some bn ∧ bn.prev = some a := by
  have hchain := hwf.chain
  obtain ⟨hhead, an, han, hrest⟩ := chainseg_cons_inv hchain
  obtain ⟨hnext, bn, hgb, -⟩ := chainseg_cons_inv hrest
  have hba : b ≠ a := by
    have hnd := hwf.nd
    rw [List.nodup_cons] at hnd
    intro hx
    exact hnd.1 (by rw [← hx]; exact List.mem_cons_self _ _)
  have hbprev : bn.prev = some a := by
    have hpok := hwf.prevok
    rw [prevok_cons] at hpok
    have hpok2 := hpok.2
    rw [prevok_cons] at hpok2
    exact hpok2.1 bn hgb
  refine ⟨⟨hset s.heap a { an with next := none, prev := none },
    an.next, if an.next = none then none else s.tail, s.ctr⟩, ?_, ?_, ?_, ?_, ?_⟩
  · simp [lfl_pop_head, hhead, han]
  · exact hnext
  · show (if an.next = none then none else s.tail) = s.tail
    rw [if_neg (by rw [hnext]; simp)]
  · intro c hc
    exact hget_hset_ne _ _ _ _ hc
  · refine ⟨bn, ?_, hbprev⟩
    show hget (hset s.heap a { an with next := none, prev := none }) b = some bn
    rw [hget_hset_ne _ _ _ _ hba]
    exact hgb

/-- Witness for C9 on a concrete two-node list. -/
theorem claim_C9_witness :
    ∃ s', lfl_pop_head { heap := [(1, { next := none, prev := some 0,
                                        removed := false, refcount := 0, val := 20 }),
                                  (0, { next := some 1, prev := none,
                                        removed := false, refcount := 0, val := 10 })],
                         head := some 0, tail := some 1, ctr := 2 } =
        some (some 0, s') ∧ s'.head = some 1 ∧
      s'.tail = some 1 ∧
      (∀ c, c ≠ 0 → hget s'.heap c =
        hget [(1, { next := none, prev := some 0, removed := false,
                    refcount := 0, val := 20 }),
              (0, { next := some 1, prev := none, removed := false,
                    refcount := 0, val := 10 })] c) ∧
      ∃ bn, hget s'.heap 1 = some bn ∧ bn.prev = some 0 := by
  obtain ⟨s', h1, h2, h3, h4, h5⟩ :=
    claim_C9 ⟨[(1, ⟨none, some 0, false, 0, 20⟩), (0, ⟨some 1, none, false, 0, 10⟩)],
      some 0, some 1, 2⟩ 0 1 []
    ⟨ChainSeg.cons rfl (ChainSeg.cons rfl (ChainSeg.nil _)), rfl,
     ⟨fun n hn => by cases hn; rfl, fun n hn => by cases hn; rfl, trivial⟩,
     by decide, by decide, by decide, by decide⟩
  exact ⟨s', h1, h2, h3, h4, h5⟩

/-! ### Claim C10: pops do not consult the removed flag -/

/-- C10: `lfl_pop_head` and `lfl_pop_tail` never read `removed`: on a
non-empty list whose head (respectively tail) node is logically removed,
they still unlink and return that removed node rather than skipping it. -/
theorem claim_C10 :
    (∀ (s : LState) (a : Nat) (n : Node), s.head = some a →
      hget s.heap a = some n → n.removed = true →
      ∃ s', lfl_pop_head s = some (some a, s')) ∧
    (∀ (s : LState) (l1 : List Nat) (t : Nat) (tn : Node), Wf s (l1 ++ [t]) →
      hget s.heap t = some tn → tn.removed = true →
      ∃ s', lfl_pop_tail s = some (some t, s')) := by
  constructor
  · intro s a n hh hg _
    refine ⟨⟨hset s.heap a { n with next := none, prev := none }, n.next,
      if n.next = none then none else s.tail, s.ctr⟩, ?_⟩
    simp [lfl_pop_head, hh, hg]
  · intro s l1 t tn hwf _ _
    obtain ⟨s', tn', heq, -, -, -, -⟩ := wf_pop_tail_snoc hwf
    exact ⟨s', heq⟩

/-- Witness for C10 on a one-node list whose sole node is removed. -/
theorem claim_C10_witness :
    (∃ s', lfl_pop_head { heap := [(0, { next := none, prev := none,
                                         removed := true, refcount := 0, val := 5 })],
                          head := some 0, tail := some 0, ctr := 1 } =
      some (some 0, s')) ∧
    (∃ s', lfl_pop_tail { heap := [(0, { next := none, prev := none,
                                         removed := true, refcount := 0, val := 5 })],
                          head := some 0, tail := some 0, ctr := 1 } =
      some (some 0, s')) := by
  constructor
  · exact claim_C10.1 ⟨[(0, ⟨none, none, true, 0, 5⟩)], some 0, some 0, 1⟩
      0 ⟨none, none, true, 0, 5⟩ rfl rfl rfl
  · exact claim_C10.2 ⟨[(0, ⟨none, none, true, 0, 5⟩)], some 0, some 0, 1⟩
      [] 0 ⟨none, none, true, 0, 5⟩
      ⟨ChainSeg.cons rfl (ChainSeg.nil _), rfl,
       ⟨fun n hn => by cases hn; rfl, trivial⟩,
       by decide, by decide, by decide, by decide⟩ rfl rfl

/-! ### Claim C4: a removed node is never observed again -/

theorem foreach_go_live {h : Heap} :
    ∀ fuel c items, lfl_foreach_go h fuel c = some items →
      ∀ p ∈ items, ∃ n, hget h p.1 = some n ∧ n.removed = false ∧ n.val = p.2 := by
  intro fuel
  induction fuel with
  | zero =>
    intro c items hrun
    simp [lfl_foreach_go] at hrun
  | succ fuel ih =>
    intro c items hrun
    cases c with
    | none =>
      simp only [lfl_foreach_go, Option.some.injEq] at hrun
      subst hrun
      intro p hp
      simp at hp
    | some cc =>
      unfold lfl_foreach_go at hrun
      cases hg : hget h cc with
      | none => rw [hg] at hrun; cases hrun
      | some cn =>
        simp only [hg] at hrun
        cases hr : lfl_foreach_go h fuel cn.next with
        | none => rw [hr] at hrun; cases hrun
        | some r =>
          rw [hr] at hrun
          simp only [Option.map_some', Option.some.injEq] at hrun
          subst hrun
          intro p hp
          by_cases hrem : cn.removed = true
          · rw [if_pos hrem] at hp
            exact ih _ _ hr p hp
          · rw [if_neg hrem] at hp
            rcases List.mem_cons.mp hp with hpc | hpc
            · subst hpc
              exact ⟨cn, hg, by simpa using hrem, rfl⟩
            · exact ih _ _ hr p hpc

theorem find_go_live {h : Heap} {v : Nat} :
    ∀ fuel c r, lfl_find_go h v fuel c = some (some r) →
      ∃ n, hget h r = some n ∧ n.removed = false ∧ n.val = v := by
  intro fuel
  induction fuel with
  | zero =>
    intro c r hrun
    simp [lfl_find_go] at hrun
  | succ fuel ih =>
    intro c r hrun
    cases c with
    | none => simp [lfl_find_go] at hrun
    | some cc =>
      unfold lfl_find_go at hrun
      cases hg : hget h cc with
      | none => rw [hg] at hrun; cases hrun
      | some cn =>
        simp only [hg] at hrun
        by_cases hcond : cn.removed = false ∧ cn.val = v
        · rw [if_pos hcond] at hrun
          injection hrun with hrun
          injection hrun with hrun
          subst hrun
          exact ⟨cn, hg, hcond.1, hcond.2⟩
        · rw [if_neg hcond] at hrun
          exact ih _ _ hrun

/-- C4: once `lfl_remove a` has returned, no later `lfl_foreach` yields the
node at `a`, `lfl_count` counts a collection from which it is absent, and no
`lfl_find` returns it — across any further sequence of operations. -/
theorem claim_C4 (ops1 ops2 : List Op) (a : Nat) (s1 s2 s3 : LState)
    (h1 : run ops1 lfl_init = some s1)
    (h2 : lfl_remove a s1 = some s2)
    (h3 : run ops2 s2 = some s3) :
    NotObserved s3 a := by
  have hex : ∃ n1, hget s1.heap a = some n1 := by
    unfold lfl_remove at h2
    cases hg : hget s1.heap a with
    | none => rw [hg] at h2; cases h2
    | some n1 => exact ⟨n1, rfl⟩
  obtain ⟨n1, hn1⟩ := hex
  have hs2 : s2 = { s1 with heap := hset s1.heap a { n1 with removed := true } } := by
    unfold lfl_remove at h2
    rw [hn1] at h2
    injection h2 with h2
    exact h2.symm
  have hb1 : ∀ k ∈ hkeys s1.heap, k < s1.ctr := by
    refine run_keysbounded ops1 _ _ h1 ?_
    intro k hk
    simp [lfl_init, hkeys] at hk
  have ha : a < s2.ctr := by
    rw [hs2]
    exact hb1 a (mem_hkeys_of_hget hn1)
  have hrm2 : ∀ n, hget s2.heap a = some n → n.removed = true := by
    intro n hn
    rw [hs2] at hn
    have hn' : hget (hset s1.heap a { n1 with removed := true }) a = some n := hn
    rw [hget_hset_eq _ _ n1 _ hn1] at hn'
    cases hn'
    rfl
  have hrm3 : ∀ n, hget s3.heap a = some n → n.removed = true := by
    intro n hn
    obtain ⟨nm, hnm, himp⟩ := (run_mono ops2 s2 s3 h3).2 a n ha hn
    exact himp (hrm2 nm hnm)
  constructor
  · intro items hitems
    constructor
    · intro hmem
      rw [List.mem_map] at hmem
      obtain ⟨p, hp, hpa⟩ := hmem
      obtain ⟨n, hg, hrem, -⟩ := foreach_go_live _ _ _ hitems p hp
      rw [hpa] at hg
      have := hrm3 n hg
      rw [this] at hrem
      cases hrem
    · unfold lfl_count
      rw [show lfl_foreach s3 = some items from hitems]
      rfl
  · intro v r hfind hra
    subst hra
    obtain ⟨n, hg, hrem, -⟩ := find_go_live _ _ _ hfind
    have := hrm3 n hg
    rw [this] at hrem
    cases hrem

/-- Witness for C4: remove a node, push another, and observe nothing of the
removed one. -/
theorem claim_C4_witness :
    NotObserved ⟨[(1, ⟨none, some 0, false, 0, 8⟩), (0, ⟨some 1, none, true, 0, 7⟩)],
      some 0, some 1, 2⟩ 0 :=
  claim_C4 [Op.addTail 7] [Op.addTail 8] 0
    ⟨[(0, ⟨none, none, false, 0, 7⟩)], some 0, some 0, 1⟩
    ⟨[(0, ⟨none, none, true, 0, 7⟩)], some 0, some 0, 1⟩
    ⟨[(1, ⟨none, some 0, false, 0, 8⟩), (0, ⟨some 1, none, true, 0, 7⟩)],
      some 0, some 1, 2⟩ rfl rfl rfl

/-! ### Claim C2: push-tail round trip -/

/-- A pointwise `Forall₂` fact may be weakened using membership of the left
element. -/
theorem forall2_mem_imp {R S : Nat → Nat → Prop} :
    ∀ {l ws : List Nat}, List.Forall₂ R l ws →
      (∀ b v, b ∈ l → R b v → S b v) → List.Forall₂ S l ws := by
  intro l ws h
  induction h with
  | nil => intro _; exact List.Forall₂.nil
  | cons hr _ ih =>
      intro himp
      exact List.Forall₂.cons (himp _ _ (List.mem_cons_self _ _) hr)
        (ih (fun b v hb => himp b v (List.mem_cons_of_mem _ hb)))

/-- Pushing `vs` at the tail of a well-formed list whose live spine carries
the payloads `ws` yields a well-formed list whose spine carries `ws ++ vs`,
node by node and in order. -/
theorem run_pushes :
    ∀ (vs : List Nat) (s : LState) (l ws : List Nat), Wf s l →
      List.Forall₂ (fun b v => ∃ n, hget s.heap b = some n ∧
        n.removed = false ∧ n.val = v) l ws →
      ∃ s' l', run (pushTailOps vs) s = some s' ∧ Wf s' l' ∧
        List.Forall₂ (fun b v => ∃ n, hget s'.heap b = some n ∧
          n.removed = false ∧ n.val = v) l' (ws ++ vs) := by
  intro vs
  induction vs with
  | nil =>
    intro s l ws hwf hfa
    exact ⟨s, l, rfl, hwf, by simpa using hfa⟩
  | cons v vs ih =>
    intro s l ws hwf hfa
    obtain ⟨s1, heq, hwf1, -, hnew, hframe⟩ := wf_add_tail_ptr hwf v 0
    have hfa1 : List.Forall₂ (fun b w => ∃ n, hget s1.heap b = some n ∧
        n.removed = false ∧ n.val = w) (l ++ [s.ctr]) (ws ++ [v]) := by
      refine List.rel_append ?_ ?_
      · refine forall2_mem_imp hfa ?_
        intro b w hb hp
        obtain ⟨n, hn, hrm, hv⟩ := hp
        have hbne : b ≠ s.ctr := by
          have := wf_spine_lt hwf b hb
          omega
        obtain ⟨nb, hnb⟩ : ∃ nb, hget s1.heap b = some nb :=
          chain_mem_hget hwf1.chain (List.mem_append_left _ hb)
        obtain ⟨nb0, hnb0, -, hrm0, -, hv0⟩ := hframe b hbne nb hnb
        rw [hn] at hnb0
        injection hnb0 with hnb0
        refine ⟨nb, hnb, ?_, ?_⟩
        · rw [hrm0, ← hnb0]; exact hrm
        · rw [hv0, ← hnb0]; exact hv
      · exact List.Forall₂.cons ⟨_, hnew, rfl, rfl⟩ List.Forall₂.nil
    obtain ⟨s', l', hrun', hwf', hfa'⟩ := ih s1 (l ++ [s.ctr]) (ws ++ [v]) hwf1 hfa1
    refine ⟨s', l', ?_, hwf', ?_⟩
    · show run (Op.addTail v :: pushTailOps vs) s = some s'
      simp only [run, stepOp, add_tail_eq_ptr, heq, Option.map_some',
        Option.some_bind]
      exact hrun'
    · rw [List.append_assoc] at hfa'
      exact hfa'

/-- Traversing a chain of live nodes with enough fuel yields exactly their
`(address, payload)` pairs in order. -/
theorem foreach_go_spine {h : Heap} :
    ∀ (l vs : List Nat) (c : Option Nat) (fuel : Nat),
      ChainSeg h c none l →
      List.Forall₂ (fun b v => ∃ n, hget h b = some n ∧
        n.removed = false ∧ n.val = v) l vs →
      l.length < fuel →
      lfl_foreach_go h fuel c = some (l.zip vs) := by
  intro l
  induction l with
  | nil =>
    intro vs c fuel hc hfa hfuel
    cases hfa
    cases hc
    cases fuel with
    | zero => omega
    | succ f => simp [lfl_foreach_go]
  | cons b l' ih =>
    intro vs c fuel hc hfa hfuel
    obtain ⟨hceq, n, hn, hc'⟩ := chainseg_cons_inv hc
    subst hceq
    cases hfa with
    | cons hr ht =>
      rename_i v vs'
      obtain ⟨n', hn', hrm, hv⟩ := hr
      rw [hn] at hn'
      injection hn' with hn'
      subst hn'
      cases fuel with
      | zero => omega
      | succ f =>
        have hrec := ih vs' n.next f hc' ht (by simp at hfuel ⊢; omega)
        simp only [lfl_foreach_go, hn, hrec, Option.map_some', hrm, hv,
          Bool.false_eq_true, if_false, List.zip_cons_cons]

/-- C2: starting from the empty list, push-tail of `v1, ..., vn` followed by
an iterate yields exactly the payloads `v1, ..., vn` in that order. -/
theorem claim_C2 (vs : List Nat) :
    ∃ s items, run (pushTailOps vs) lfl_init = some s ∧
      lfl_foreach s = some items ∧ items.map Prod.snd = vs := by
  obtain ⟨s, l, hrun, hwf, hfa⟩ :=
    run_pushes vs lfl_init [] [] wf_init List.Forall₂.nil
  rw [List.nil_append] at hfa
  have hlen : l.length < s.heap.length + 1 :=
    Nat.lt_succ_of_le (wf_spine_length_le hwf)
  have hfe := foreach_go_spine l vs s.head (s.heap.length + 1)
    hwf.chain hfa hlen
  refine ⟨s, l.zip vs, hrun, hfe, ?_⟩
  have hl : vs.length ≤ l.length := le_of_eq (List.Forall₂.length_eq hfa).symm
  exact List.map_snd_zip l vs hl

/-! ### Claim C3: sweep reaps exactly the removed, zero-refcount nodes -/

/-- A node fails `keep` exactly when it is removed with a zero refcount. -/
theorem keep_false_iff (n : Node) :
    keep n = false ↔ (n.removed = true ∧ n.refcount = 0) := by
  simp [keep]

/-- A node with a positive refcount is always kept. -/
theorem keep_of_refcount_pos {n : Node} (h : n.refcount ≠ 0) :
    keep n = true := by
  simp [keep]
  exact Or.inr h

/-- Overwriting the `next` field with its current value is the identity. -/
theorem node_update_next_self {n : Node} {e : Option Nat} (h : n.next = e) :
    { n with next := e } = n := by
  subst h
  rfl

/-- `keptAddrs` over a cons whose head is kept. -/
theorem keptAddrs_cons_kept {h : Heap} {b : Nat} {n : Node} {l : List Nat}
    (hn : hget h b = some n) (hk : keep n = true) :
    keptAddrs h (b :: l) = b :: keptAddrs h l := by
  simp [keptAddrs, List.filter_cons, keptB, hn, hk]

/-- `keptAddrs` over a cons whose head is reaped. -/
theorem keptAddrs_cons_reaped {h : Heap} {b : Nat} {n : Node} {l : List Nat}
    (hn : hget h b = some n) (hk : keep n = false) :
    keptAddrs h (b :: l) = keptAddrs h l := by
  simp [keptAddrs, List.filter_cons, keptB, hn, hk]

/-- `reapedPairs` over a cons whose head is kept. -/
theorem reapedPairs_cons_kept {h : Heap} {b : Nat} {n : Node} {l : List Nat}
    (hn : hget h b = some n) (hk : keep n = true) :
    reapedPairs h (b :: l) = reapedPairs h l := by
  simp [reapedPairs, List.filterMap_cons, hn, hk]

/-- `reapedPairs` over a cons whose head is reaped. -/
theorem reapedPairs_cons_reaped {h : Heap} {b : Nat} {n : Node} {l : List Nat}
    (hn : hget h b = some n) (hk : keep n = false) :
    reapedPairs h (b :: l) = (b, n.val) :: reapedPairs h l := by
  simp [reapedPairs, List.filterMap_cons, hn, hk]

/-- `keptAddrs` only depends on the heap's values along the list. -/
theorem keptAddrs_congr {h1 h2 : Heap} :
    ∀ {l : List Nat}, (∀ a ∈ l, hget h1 a = hget h2 a) →
      keptAddrs h1 l = keptAddrs h2 l := by
  intro l
  induction l with
  | nil => intro _; rfl
  | cons a l ih =>
    intro hag
    have ha := hag a (List.mem_cons_self _ _)
    have ht := ih (fun x hx => hag x (List.mem_cons_of_mem _ hx))
    have hb : keptB h1 a = keptB h2 a := by unfold keptB; rw [ha]
    unfold keptAddrs at ht ⊢
    simp only [List.filter_cons, hb, ht]

/-- `reapedPairs` only depends on the heap's values along the list. -/
theorem reapedPairs_congr {h1 h2 : Heap} :
    ∀ {l : List Nat}, (∀ a ∈ l, hget h1 a = hget h2 a) →
      reapedPairs h1 l = reapedPairs h2 l := by
  intro l
  induction l with
  | nil => intro _; rfl
  | cons a l ih =>
    intro hag
    have ha := hag a (List.mem_cons_self _ _)
    have ht := ih (fun x hx => hag x (List.mem_cons_of_mem _ hx))
    unfold reapedPairs at ht ⊢
    simp only [List.filterMap_cons, ha, ht]

/-- When every node on the chain is kept, the sweep worker changes nothing
and logs nothing. -/
theorem sweep_go_id :
    ∀ (l : List Nat) (fuel : Nat) (pr c : Option Nat) (s : LState)
      (fins : List (Nat × Nat)),
      ChainSeg s.heap c none l →
      (∀ b ∈ l, ∀ n, hget s.heap b = some n → keep n = true) →
      l.length < fuel →
      lfl_sweep_go fuel pr c s fins = some (s, fins) := by
  intro l
  induction l with
  | nil =>
    intro fuel pr c s fins hc _ hfuel
    cases hc
    cases fuel with
    | zero => omega
    | succ f => simp [lfl_sweep_go]
  | cons b l ih =>
    intro fuel pr c s fins hc hkeep hfuel
    obtain ⟨hceq, n, hn, hc'⟩ := chainseg_cons_inv hc
    subst hceq
    cases fuel with
    | zero => omega
    | succ f =>
      have hk := hkeep b (List.mem_cons_self _ _) n hn
      have hnot : ¬(n.removed = true ∧ n.refcount = 0) := by
        intro hcontra
        rw [(keep_false_iff n).mpr hcontra] at hk
        simp at hk
      simp only [lfl_sweep_go, hn]
      rw [if_neg hnot]
      exact ih f (some b) n.next s fins hc'
        (fun x hx => hkeep x (List.mem_cons_of_mem _ hx))
        (by simp at hfuel ⊢; omega)


/-- The sweep worker on an anchored chain segment of a deduplicated spine:
it terminates, appends to the log exactly the reaped (address, payload)
pairs in chain order, leaves the tail pointer, the counter and every
off-segment node untouched, frees exactly the reaped nodes, preserves every
kept node's fields other than `next`, relinks the kept nodes into a chain,
and publishes the new chain head in the anchor (the head pointer when the
walk started at head, the predecessor's `next` field otherwise). -/
theorem sweep_go_master :
    ∀ (l2 : List Nat) (fuel : Nat) (pr c : Option Nat) (s : LState)
      (fins : List (Nat × Nat)),
      ChainSeg s.heap c none l2 → l2.Nodup →
      ((pr = none ∧ s.head = c) ∨
        ∃ p pn, pr = some p ∧ p ∉ l2 ∧ hget s.heap p = some pn ∧
          pn.next = c) →
      l2.length < fuel →
      ∃ s', lfl_sweep_go fuel pr c s fins =
          some (s', fins ++ reapedPairs s.heap l2) ∧
        s'.tail = s.tail ∧ s'.ctr = s.ctr ∧
        (pr ≠ none → s'.head = s.head) ∧
        (∀ b, b ∉ l2 → pr ≠ some b → hget s'.heap b = hget s.heap b) ∧
        (∀ b ∈ l2, ∀ n, hget s.heap b = some n → keep n = false →
          hget s'.heap b = none) ∧
        (∀ b ∈ l2, ∀ n, hget s.heap b = some n → keep n = true →
          ∃ n', hget s'.heap b = some n' ∧ n'.prev = n.prev ∧
            n'.removed = n.removed ∧ n'.refcount = n.refcount ∧
            n'.val = n.val) ∧
        ChainSeg s'.heap (keptAddrs s.heap l2).head? none
          (keptAddrs s.heap l2) ∧
        (pr = none → s'.head = (keptAddrs s.heap l2).head?) ∧
        (∀ p pn, pr = some p → hget s.heap p = some pn →
          hget s'.heap p =
            some { pn with next := (keptAddrs s.heap l2).head? }) := by
  intro l2
  induction l2 with
  | nil =>
    intro fuel pr c s fins hc hnd hanc hfuel
    cases hc
    cases fuel with
    | zero => omega
    | succ f =>
      refine ⟨s, ?_, rfl, rfl, fun _ => rfl, fun b _ _ => rfl,
        ?_, ?_, ChainSeg.nil none, ?_, ?_⟩
      · simp [lfl_sweep_go, reapedPairs]
      · intro b hb; simp at hb
      · intro b hb; simp at hb
      · intro hpr
        rcases hanc with ⟨-, hhd⟩ | ⟨p, pn, hps, -, -, -⟩
        · exact hhd
        · rw [hpr] at hps; cases hps
      · intro q qn hpr hq
        rcases hanc with ⟨hprn, -⟩ | ⟨p, pn, hps, -, hp0, hpn0⟩
        · rw [hprn] at hpr; cases hpr
        · rw [hps] at hpr
          injection hpr with hpe
          rw [← hpe] at hq ⊢
          rw [hp0] at hq
          injection hq with hqe
          rw [← hqe]
          show hget s.heap p = some { pn with next := none }
          rw [node_update_next_self hpn0]
          exact hp0
  | cons b l2 ih =>
    intro fuel pr c s fins hc hnd hanc hfuel
    obtain ⟨hceq, n, hn, hc'⟩ := chainseg_cons_inv hc
    subst hceq
    obtain ⟨hbnm, hnd'⟩ := List.nodup_cons.mp hnd
    cases fuel with
    | zero => omega
    | succ f =>
      have hfuel' : l2.length < f := by simp at hfuel; omega
      cases hkp : keep n with
      | true =>
        -- the current node is kept: walk on with pr := current
        have hnot : ¬(n.removed = true ∧ n.refcount = 0) := by
          intro hcontra
          rw [(keep_false_iff n).mpr hcontra] at hkp
          simp at hkp
        obtain ⟨s', heq', htl', hctr', hhd', hframe', hgone', hkept',
            hchain', -, hpend'⟩ :=
          ih f (some b) n.next s fins hc' hnd'
            (Or.inr ⟨b, n, rfl, hbnm, hn, rfl⟩) hfuel'
        have hhead : s'.head = s.head := hhd' (by simp)
        have hka : keptAddrs s.heap (b :: l2) = b :: keptAddrs s.heap l2 :=
          keptAddrs_cons_kept hn hkp
        have hbnode := hpend' b n rfl hn
        refine ⟨s', ?_, htl', hctr', fun _ => hhead, ?_, ?_, ?_, ?_, ?_, ?_⟩
        · simp only [lfl_sweep_go, hn]
          rw [if_neg hnot, reapedPairs_cons_kept hn hkp]
          exact heq'
        · intro b' hb' hprb'
          have hb'b : b' ≠ b := fun he => hb' (he ▸ List.mem_cons_self _ _)
          refine hframe' b' (fun hx => hb' (List.mem_cons_of_mem _ hx)) ?_
          intro he
          injection he with he2
          exact hb'b he2.symm
        · intro b' hb' m hm hkm
          rcases List.mem_cons.mp hb' with he | hb'
          · subst he
            rw [hn] at hm
            injection hm with hm
            rw [← hm, hkp] at hkm
            cases hkm
          · exact hgone' b' hb' m hm hkm
        · intro b' hb' m hm hkm
          rcases List.mem_cons.mp hb' with he | hb'
          · subst he
            rw [hn] at hm
            injection hm with hm
            subst hm
            exact ⟨_, hbnode, rfl, rfl, rfl, rfl⟩
          · exact hkept' b' hb' m hm hkm
        · rw [hka]
          exact ChainSeg.cons hbnode hchain'
        · intro hprn
          rcases hanc with ⟨-, hhd0⟩ | ⟨p, pn, hps, -, -, -⟩
          · rw [hhead, hhd0, hka]; rfl
          · rw [hprn] at hps; cases hps
        · intro q qn hpr hq
          rcases hanc with ⟨hprn, -⟩ | ⟨p, pn, hps, hpm, hp0, hpn0⟩
          · rw [hprn] at hpr; cases hpr
          · rw [hps] at hpr
            injection hpr with hpe
            rw [← hpe] at hq ⊢
            rw [hp0] at hq
            injection hq with hqe
            rw [← hqe]
            have hpb : p ≠ b := fun he => hpm (he ▸ List.mem_cons_self _ _)
            have hfr : hget s'.heap p = hget s.heap p := by
              refine hframe' p (fun hx => hpm (List.mem_cons_of_mem _ hx)) ?_
              intro he
              injection he with he2
              exact hpb he2.symm
            rw [hfr, hka]
            show hget s.heap p = some { pn with next := some b }
            rw [node_update_next_self hpn0]
            exact hp0
      | false =>
        -- the current node is reaped
        obtain ⟨hrm, hrc⟩ := (keep_false_iff n).mp hkp
        have hcond : n.removed = true ∧ n.refcount = 0 := ⟨hrm, hrc⟩
        have hka : keptAddrs s.heap (b :: l2) = keptAddrs s.heap l2 :=
          keptAddrs_cons_reaped hn hkp
        have hrp : reapedPairs s.heap (b :: l2) =
            (b, n.val) :: reapedPairs s.heap l2 :=
          reapedPairs_cons_reaped hn hkp
        rcases hanc with ⟨hprn, hhd0⟩ | ⟨p, pn, hps, hpm, hp0, hpn0⟩
        · -- reaping the head node
          subst hprn
          have hcongr : ∀ a ∈ l2,
              hget (hdel s.heap b) a = hget s.heap a := by
            intro a ha
            have hab : a ≠ b := fun he => hbnm (he ▸ ha)
            rw [hget_hdel, if_neg hab]
          obtain ⟨s', heq', htl', hctr', -, hframe', hgone', hkept',
              hchain', hhdn', -⟩ :=
            ih f none n.next
              ({ s with heap := hdel s.heap b, head := n.next })
              (fins ++ [(b, n.val)])
              (chainseg_congr hcongr hc') hnd'
              (Or.inl ⟨rfl, rfl⟩) hfuel'
          have hkacongr : keptAddrs (hdel s.heap b) l2 =
              keptAddrs s.heap l2 := keptAddrs_congr hcongr
          have hrpcongr : reapedPairs (hdel s.heap b) l2 =
              reapedPairs s.heap l2 := reapedPairs_congr hcongr
          refine ⟨s', ?_, htl', hctr', ?_, ?_, ?_, ?_, ?_, ?_, ?_⟩
          · simp only [lfl_sweep_go, hn]
            rw [if_pos hcond, if_pos hhd0, heq']
            show some (s', (fins ++ [(b, n.val)]) ++
                reapedPairs (hdel s.heap b) l2) = _
            rw [hrpcongr, hrp]
            simp
          · intro hr; exact absurd rfl hr
          · intro b' hb' _
            have hb'b : b' ≠ b := fun he => hb' (he ▸ List.mem_cons_self _ _)
            have h1 := hframe' b'
              (fun hx => hb' (List.mem_cons_of_mem _ hx)) (by simp)
            rw [h1]
            show hget (hdel s.heap b) b' = hget s.heap b'
            rw [hget_hdel, if_neg hb'b]
          · intro b' hb' m hm hkm
            rcases List.mem_cons.mp hb' with he | hb'
            · subst he
              have h1 := hframe' b' hbnm (by simp)
              rw [h1]
              show hget (hdel s.heap b') b' = none
              rw [hget_hdel, if_pos rfl]
            · refine hgone' b' hb' m ?_ hkm
              show hget (hdel s.heap b) b' = some m
              rw [hcongr b' hb']
              exact hm
          · intro b' hb' m hm hkm
            rcases List.mem_cons.mp hb' with he | hb'
            · subst he
              rw [hn] at hm
              injection hm with hm
              rw [← hm, hkp] at hkm
              cases hkm
            · refine hkept' b' hb' m ?_ hkm
              show hget (hdel s.heap b) b' = some m
              rw [hcongr b' hb']
              exact hm
          · rw [hka, ← hkacongr]
            exact hchain'
          · intro _hx
            rw [hka, ← hkacongr]
            exact hhdn' rfl
          · intro q qn hpr
            cases hpr
        · -- reaping an interior node: unlink it from its predecessor
          subst hps
          have hpb : p ≠ b := fun he => hpm (he ▸ List.mem_cons_self _ _)
          have hpm' : p ∉ l2 := fun hx => hpm (List.mem_cons_of_mem _ hx)
          have hcongr : ∀ a ∈ l2,
              hget (hdel (hset s.heap p { pn with next := n.next }) b) a =
                hget s.heap a := by
            intro a ha
            have hab : a ≠ b := fun he => hbnm (he ▸ ha)
            have hap : a ≠ p := fun he => hpm' (he ▸ ha)
            rw [hget_hdel, if_neg hab]
            exact hget_hset_ne _ _ _ _ hap
          have hgp : hget (hdel (hset s.heap p
              { pn with next := n.next }) b) p =
              some { pn with next := n.next } := by
            rw [hget_hdel, if_neg hpb]
            exact hget_hset_eq _ _ _ _ hp0
          obtain ⟨s', heq', htl', hctr', hhd', hframe', hgone', hkept',
              hchain', -, hpend'⟩ :=
            ih f (some p) n.next
              ({ s with heap := hdel (hset s.heap p { pn with next := n.next }) b })
              (fins ++ [(b, n.val)])
              (chainseg_congr hcongr hc') hnd'
              (Or.inr ⟨p, { pn with next := n.next }, rfl, hpm', hgp, rfl⟩)
              hfuel'
          have hkacongr : keptAddrs
              (hdel (hset s.heap p { pn with next := n.next }) b) l2 =
              keptAddrs s.heap l2 := keptAddrs_congr hcongr
          have hrpcongr : reapedPairs
              (hdel (hset s.heap p { pn with next := n.next }) b) l2 =
              reapedPairs s.heap l2 := reapedPairs_congr hcongr
          have hhead : s'.head = s.head := hhd' (by simp)
          refine ⟨s', ?_, htl', hctr', fun _ => hhead, ?_, ?_, ?_, ?_, ?_, ?_⟩
          · simp only [lfl_sweep_go, hn]
            rw [if_pos hcond]
            simp only [hp0]
            rw [if_pos hpn0, heq']
            show some (s', (fins ++ [(b, n.val)]) ++
                reapedPairs (hdel (hset s.heap p
                  { pn with next := n.next }) b) l2) = _
            rw [hrpcongr, hrp]
            simp
          · intro b' hb' hprb'
            have hb'b : b' ≠ b := fun he => hb' (he ▸ List.mem_cons_self _ _)
            have hb'p : b' ≠ p := fun he => hprb' (by rw [he])
            have h1 : hget s'.heap b' =
                hget (hdel (hset s.heap p
                  { pn with next := n.next }) b) b' := by
              refine hframe' b' (fun hx => hb' (List.mem_cons_of_mem _ hx)) ?_
              intro he
              injection he with he2
              exact hb'p he2.symm
            rw [h1, hget_hdel, if_neg hb'b]
            exact hget_hset_ne _ _ _ _ hb'p
          · intro b' hb' m hm hkm
            rcases List.mem_cons.mp hb' with he | hb'
            · subst he
              have h1 : hget s'.heap b' =
                  hget (hdel (hset s.heap p
                    { pn with next := n.next }) b') b' := by
                refine hframe' b' hbnm ?_
                intro he
                injection he with he2
                exact hpb he2
              rw [h1, hget_hdel, if_pos rfl]
            · refine hgone' b' hb' m ?_ hkm
              rw [hcongr b' hb']
              exact hm
          · intro b' hb' m hm hkm
            rcases List.mem_cons.mp hb' with he | hb'
            · subst he
              rw [hn] at hm
              injection hm with hm
              rw [← hm, hkp] at hkm
              cases hkm
            · refine hkept' b' hb' m ?_ hkm
              rw [hcongr b' hb']
              exact hm
          · rw [hka, ← hkacongr]
            exact hchain'
          · intro hpr
            cases hpr
          · intro q qn hpr hq
            injection hpr with hpe
            rw [← hpe] at hq ⊢
            rw [hp0] at hq
            injection hq with hqe
            rw [← hqe]
            have h1 := hpend' p { pn with next := n.next } rfl hgp
            rw [h1, hka, ← hkacongr]

/-- C3: on a well-formed list, sweep terminates and reaps exactly the nodes
whose `removed` flag is set and whose refcount is zero — its finalizer log
is exactly those (address, payload) pairs; when no node is removed the state
comes back unchanged with an empty log; and a node with a positive refcount
is never finalized, freed or unlinked (its fields other than `next` are
untouched and, if it was on the spine, it is still on the resulting chain
from head), even if it is marked removed. -/
theorem claim_C3 {s : LState} {l : List Nat} (hwf : Wf s l) :
    ∃ s' fins, lfl_sweep s = some (s', fins) ∧
      fins = reapedPairs s.heap l ∧
      ((∀ p ∈ s.heap, p.2.removed = false) → s' = s ∧ fins = []) ∧
      (∀ b n, hget s.heap b = some n → n.refcount ≠ 0 →
        (∀ v, (b, v) ∉ fins) ∧
        (∃ n', hget s'.heap b = some n' ∧ n'.prev = n.prev ∧
          n'.removed = n.removed ∧ n'.refcount = n.refcount ∧
          n'.val = n.val) ∧
        (b ∈ l → Chain s'.heap s'.head (keptAddrs s.heap l) ∧
          b ∈ keptAddrs s.heap l)) := by
  have hfuel : l.length < s.heap.length + 1 :=
    Nat.lt_succ_of_le (wf_spine_length_le hwf)
  obtain ⟨s', heq, -, -, -, hframe, -, hkept, hchain, hhdn, -⟩ :=
    sweep_go_master l (s.heap.length + 1) none s.head s []
      hwf.chain hwf.nd (Or.inl ⟨rfl, rfl⟩) hfuel
  refine ⟨s', reapedPairs s.heap l, ?_, rfl, ?_, ?_⟩
  · show lfl_sweep_go (s.heap.length + 1) none s.head s [] = _
    rw [heq, List.nil_append]
  · intro hnorm
    have hallkeep : ∀ b ∈ l, ∀ n, hget s.heap b = some n →
        keep n = true := by
      intro b _ n hn
      have := hnorm (b, n) (mem_of_hget hn)
      simp [keep]
      exact Or.inl this
    have hid := sweep_go_id l (s.heap.length + 1) none s.head s []
      hwf.chain hallkeep hfuel
    have : lfl_sweep_go (s.heap.length + 1) none s.head s [] =
        some (s', [] ++ reapedPairs s.heap l) := heq
    rw [hid] at this
    injection this with this
    have h1 := congrArg Prod.fst this
    have h2 := congrArg Prod.snd this
    simp at h1 h2
    exact ⟨h1.symm, h2⟩
  · intro b n hn hrc
    have hkn : keep n = true := keep_of_refcount_pos hrc
    refine ⟨?_, ?_, ?_⟩
    · intro v hv
      obtain ⟨a, ha, hfa⟩ := List.mem_filterMap.mp hv
      cases hga : hget s.heap a with
      | none => simp only [hga] at hfa; cases hfa
      | some m =>
        simp only [hga] at hfa
        by_cases hkm : keep m = true
        · rw [if_pos hkm] at hfa; cases hfa
        · rw [if_neg hkm] at hfa
          injection hfa with hfa
          have hab : a = b := congrArg Prod.fst hfa
          subst hab
          rw [hga] at hn
          injection hn with hn
          rw [hn] at hkm
          exact hkm hkn
    · by_cases hb : b ∈ l
      · exact hkept b hb n hn hkn
      · have hfr := hframe b hb (by simp)
        rw [hfr]
        exact ⟨n, hn, rfl, rfl, rfl, rfl⟩
    · intro hb
      refine ⟨?_, ?_⟩
      · show ChainSeg s'.heap s'.head none (keptAddrs s.heap l)
        rw [hhdn rfl]
        exact hchain
      · refine List.mem_filter.mpr ⟨hb, ?_⟩
        show keptB s.heap b = true
        unfold keptB
        rw [hn]
        exact hkn

/-- Witness for C3: a one-node list whose node is marked removed but holds
refcount 1 satisfies the hypotheses; the sweep keeps the node. -/
theorem claim_C3_witness :
    ∃ s' fins,
      lfl_sweep (⟨[(0, ⟨none, none, true, 1, 7⟩)], some 0, some 0, 1⟩ : LState) =
        some (s', fins) ∧
      fins = reapedPairs [(0, ⟨none, none, true, 1, 7⟩)] [0] ∧
      ((∀ p ∈ ([(0, (⟨none, none, true, 1, 7⟩ : Node))] : Heap),
          p.2.removed = false) →
        s' = (⟨[(0, ⟨none, none, true, 1, 7⟩)], some 0, some 0, 1⟩ : LState) ∧
          fins = []) ∧
      (∀ b n, hget [(0, ⟨none, none, true, 1, 7⟩)] b = some n →
        n.refcount ≠ 0 →
        (∀ v, (b, v) ∉ fins) ∧
        (∃ n', hget s'.heap b = some n' ∧ n'.prev = n.prev ∧
          n'.removed = n.removed ∧ n'.refcount = n.refcount ∧
          n'.val = n.val) ∧
        (b ∈ [0] → Chain s'.heap s'.head
            (keptAddrs [(0, ⟨none, none, true, 1, 7⟩)] [0]) ∧
          b ∈ keptAddrs [(0, ⟨none, none, true, 1, 7⟩)] [0])) :=
  claim_C3
    { chain := ChainSeg.cons rfl (ChainSeg.nil none)
      tl := rfl
      prevok := ⟨fun n hn => by cases hn; rfl, trivial⟩
      nd := by decide
      keys_nd := by decide
      keys_lt := by decide
      detached := by decide }
